import Mathlib

/-!
Verification of the task-prioritizer scoring and annotation engine.

The Python source (task_prioritizer/main.py and config.py) is shallowly
embedded here: strings become lists of characters, floats become exact
rationals, the environment-backed configuration object becomes an explicit
structure value, and every parsing loop becomes a structurally recursive
function (loops that consume their input are written with an explicit fuel
argument equal to the input length plus one, which is always sufficient
because every iteration strictly shortens the input; fuel-irrelevance is
proved below).
-/

namespace TaskPrioritizer

/-- Whitespace predicate used by both the strip operations and the regex
whitespace class of the embedded parser (ASCII whitespace characters). -/
def isWs (c : Char) : Bool :=
  c == ' ' || c == '\t' || c == '\n' || c == '\r' || c == '\x0b' || c == '\x0c'

/-- Python str.lstrip. -/
def lstrip (s : List Char) : List Char := s.dropWhile isWs

/-- Python str.rstrip. -/
def rstrip (s : List Char) : List Char := (s.reverse.dropWhile isWs).reverse

/-- Python str.strip. -/
def pstrip (s : List Char) : List Char := rstrip (lstrip s)

/-- Python str.startswith on character lists. -/
def startsWith : List Char → List Char → Bool
  | [], _ => true
  | _ :: _, [] => false
  | p :: ps, c :: cs => p == c && startsWith ps cs

/-- The star glyph from Config.SYMBOLS (a two-codepoint emoji). -/
def star : List Char := ['⭐', '\uFE0F']

/-- The surprise glyph from Config.SYMBOLS. -/
def gift : List Char := ['🎁']

/-- The planned_yes glyph from Config.SYMBOLS (a two-codepoint emoji). -/
def plannedYes : List Char := ['🗓', '\uFE0F']

/-- The planned_no glyph from Config.SYMBOLS. -/
def plannedNo : List Char := ['🎲']

/-- The literal double-dash separator. -/
def dashdash : List Char := ['-', '-']

/-- One pass of the token-stripping for-loop inside _strip_leading_symbols:
try each decoration token in source order; on the first match drop it and
lstrip the remainder. Returns none when no token matches (loop exit). -/
def stripOnce (s : List Char) : Option (List Char) :=
  if startsWith star s then some (lstrip (s.drop star.length))
  else if startsWith gift s then some (lstrip (s.drop gift.length))
  else if startsWith plannedYes s then some (lstrip (s.drop plannedYes.length))
  else if startsWith plannedNo s then some (lstrip (s.drop plannedNo.length))
  else if startsWith dashdash s then some (lstrip (s.drop dashdash.length))
  else none

/-- The while-loop of _strip_leading_symbols, with explicit fuel. -/
def stripLoopF : Nat → List Char → List Char
  | 0, s => s
  | f + 1, s =>
    match stripOnce s with
    | some s2 => stripLoopF f s2
    | none => s

/-- The while-loop of _strip_leading_symbols with sufficient fuel. -/
def stripLoopRun (s : List Char) : List Char := stripLoopF (s.length + 1) s

/-- _strip_leading_symbols from main.py: lstrip, then repeatedly strip any
leading decoration token (star, surprise, planned, spontaneous, double-dash),
each followed by an lstrip, until no token matches. -/
def strip_leading_symbols (s : List Char) : List Char := stripLoopRun (lstrip s)

theorem length_dropWhile_le (p : Char → Bool) (l : List Char) :
    (l.dropWhile p).length ≤ l.length := by
  induction l with
  | nil => simp
  | cons a l ih =>
    by_cases h : p a
    · rw [List.dropWhile_cons_of_pos h]
      exact ih.trans (Nat.le_succ _)
    · rw [List.dropWhile_cons_of_neg h]

theorem lstrip_length_le (s : List Char) : (lstrip s).length ≤ s.length :=
  length_dropWhile_le isWs s

theorem startsWith_length {p s : List Char} (h : startsWith p s = true) :
    p.length ≤ s.length := by
  induction p generalizing s with
  | nil => simp
  | cons a ps ih =>
    cases s with
    | nil => simp [startsWith] at h
    | cons c cs =>
      simp only [startsWith, Bool.and_eq_true] at h
      simpa using ih h.2

theorem startsWith_append (p t : List Char) : startsWith p (p ++ t) = true := by
  induction p with
  | nil => simp [startsWith]
  | cons a ps ih => simp [startsWith, ih]

theorem strip_drop_length {t s : List Char} (ht : t ≠ [])
    (h : startsWith t s = true) : (lstrip (s.drop t.length)).length < s.length := by
  have h1 := startsWith_length h
  have h2 := lstrip_length_le (s.drop t.length)
  have h3 : 1 ≤ t.length := by
    cases t with
    | nil => exact absurd rfl ht
    | cons a l => simp
  simp only [List.length_drop] at h2
  omega

theorem stripOnce_length {s s2 : List Char} (h : stripOnce s = some s2) :
    s2.length < s.length := by
  unfold stripOnce at h
  split_ifs at h with h1 h2 h3 h4 h5 <;>
    first
    | (injection h with h ; subst h
       exact strip_drop_length (by simp [star, gift, plannedYes, plannedNo, dashdash])
         (by assumption))
    | exact absurd h (by simp)

theorem stripLoopF_fuel {f1 f2 : Nat} {s : List Char}
    (h1 : s.length < f1) (h2 : s.length < f2) :
    stripLoopF f1 s = stripLoopF f2 s := by
  induction f1 generalizing s f2 with
  | zero => omega
  | succ n ih =>
    cases f2 with
    | zero => omega
    | succ m =>
      simp only [stripLoopF]
      cases hso : stripOnce s with
      | none => rfl
      | some s2 =>
        have hlt := stripOnce_length hso
        exact ih (by omega) (by omega)

theorem stripLoopRun_eq (s : List Char) :
    stripLoopRun s = match stripOnce s with
      | some s2 => stripLoopRun s2
      | none => s := by
  cases hso : stripOnce s with
  | none =>
    unfold stripLoopRun
    simp only [stripLoopF, hso]
  | some s2 =>
    have hlt := stripOnce_length hso
    unfold stripLoopRun
    simp only [stripLoopF, hso]
    exact @stripLoopF_fuel s.length (s2.length + 1) s2 (by omega) (by omega)


theorem lstrip_cons_not_ws {a : Char} (l : List Char) (h : isWs a = false) :
    lstrip (a :: l) = a :: l := by
  simp [lstrip, List.dropWhile_cons, h]

theorem lstrip_cons_ws {a : Char} (l : List Char) (h : isWs a = true) :
    lstrip (a :: l) = lstrip l := by
  simp [lstrip, List.dropWhile_cons, h]

theorem lstrip_eq_self_head {a : Char} {l : List Char}
    (h : lstrip (a :: l) = a :: l) : isWs a = false := by
  by_contra hne
  rw [Bool.not_eq_false] at hne
  rw [lstrip_cons_ws l hne] at h
  have := lstrip_length_le l
  have : (lstrip l).length = l.length + 1 := by rw [h]; simp
  omega

theorem lstrip_idem (l : List Char) : lstrip (lstrip l) = lstrip l := by
  cases h : lstrip l with
  | nil => rfl
  | cons a t =>
    have ha : isWs a = false := by
      have := List.head?_dropWhile_not isWs l
      rw [show l.dropWhile isWs = lstrip l from rfl, h] at this
      simpa using this
    rw [lstrip_cons_not_ws t ha]

theorem rstrip_decomp (l : List Char) :
    ∃ w, l = rstrip l ++ w ∧ ∀ c ∈ w, isWs c = true := by
  refine ⟨(l.reverse.takeWhile isWs).reverse, ?_, ?_⟩
  · rw [rstrip]
    rw [← List.reverse_append, List.takeWhile_append_dropWhile, List.reverse_reverse]
  · intro c hc
    rw [List.mem_reverse] at hc
    exact List.mem_takeWhile_imp hc

theorem rstrip_eq_self_of_last {l : List Char} {b : Char}
    (hb : l.getLast? = some b) (hws : isWs b = false) : rstrip l = l := by
  rw [rstrip]
  rw [← List.head?_reverse] at hb
  cases hr : l.reverse with
  | nil => rw [hr] at hb; simp at hb
  | cons x t =>
    rw [hr] at hb
    simp only [List.head?_cons, Option.some.injEq] at hb
    subst hb
    rw [List.dropWhile_cons_of_neg (by simp [hws])]
    rw [← hr, List.reverse_reverse]

theorem rstrip_head {l : List Char} :
    rstrip l = [] ∨ (rstrip l).head? = l.head? := by
  obtain ⟨w, hw, -⟩ := rstrip_decomp l
  cases hr : rstrip l with
  | nil => exact Or.inl rfl
  | cons a t =>
    right
    rw [hw, hr]
    simp

theorem lstrip_rstrip {l : List Char} (h : lstrip l = l) :
    lstrip (rstrip l) = rstrip l := by
  rcases rstrip_head (l := l) with hr | hr
  · rw [hr]; rfl
  · cases hrl : rstrip l with
    | nil => rfl
    | cons a t =>
      rw [hrl] at hr
      cases l with
      | nil => simp [rstrip] at hrl
      | cons x m =>
        simp only [List.head?_cons, Option.some.injEq] at hr
        subst hr
        exact lstrip_cons_not_ws t (lstrip_eq_self_head h)

theorem rstrip_idem (l : List Char) : rstrip (rstrip l) = rstrip l := by
  rw [rstrip, rstrip, List.reverse_reverse]
  congr 1
  exact lstrip_idem l.reverse

theorem pstrip_idem (l : List Char) : pstrip (pstrip l) = pstrip l := by
  rw [pstrip, pstrip]
  rw [lstrip_rstrip (lstrip_idem l)]
  exact rstrip_idem _

theorem pstrip_cons_ws {a : Char} (l : List Char) (h : isWs a = true) :
    pstrip (a :: l) = pstrip l := by
  rw [pstrip, lstrip_cons_ws l h]
  rfl

theorem pstrip_eq_self {l : List Char} {a b : Char}
    (ha : l.head? = some a) (hwa : isWs a = false)
    (hb : l.getLast? = some b) (hwb : isWs b = false) : pstrip l = l := by
  cases l with
  | nil => simp at ha
  | cons x m =>
    simp only [List.head?_cons, Option.some.injEq] at ha
    subst ha
    rw [pstrip, lstrip_cons_not_ws m hwa]
    exact rstrip_eq_self_of_last hb hwb


theorem startsWith_cons_ne {p c : Char} {ps cs : List Char} (h : (p == c) = false) :
    startsWith (p :: ps) (c :: cs) = false := by
  simp [startsWith, h]

theorem drop_append_self (l₁ l₂ : List Char) : (l₁ ++ l₂).drop l₁.length = l₂ := by
  induction l₁ with
  | nil => simp
  | cons a t ih => simpa using ih

theorem stripOnce_star (s : List Char) : stripOnce (star ++ s) = some (lstrip s) := by
  rw [stripOnce, if_pos (startsWith_append star s)]
  rw [show star.length = star.length from rfl, drop_append_self]

theorem stripOnce_gift (s : List Char) : stripOnce (gift ++ s) = some (lstrip s) := by
  have h1 : startsWith star (gift ++ s) = false := startsWith_cons_ne (by decide)
  rw [stripOnce, if_neg (by simp [h1]), if_pos (startsWith_append gift s)]
  rw [show gift.length = gift.length from rfl, drop_append_self]

theorem stripOnce_plannedYes (s : List Char) :
    stripOnce (plannedYes ++ s) = some (lstrip s) := by
  have h1 : startsWith star (plannedYes ++ s) = false := startsWith_cons_ne (by decide)
  have h2 : startsWith gift (plannedYes ++ s) = false := startsWith_cons_ne (by decide)
  rw [stripOnce, if_neg (by simp [h1]), if_neg (by simp [h2]),
    if_pos (startsWith_append plannedYes s)]
  rw [show plannedYes.length = plannedYes.length from rfl, drop_append_self]

theorem stripOnce_plannedNo (s : List Char) :
    stripOnce (plannedNo ++ s) = some (lstrip s) := by
  have h1 : startsWith star (plannedNo ++ s) = false := startsWith_cons_ne (by decide)
  have h2 : startsWith gift (plannedNo ++ s) = false := startsWith_cons_ne (by decide)
  have h3 : startsWith plannedYes (plannedNo ++ s) = false := startsWith_cons_ne (by decide)
  rw [stripOnce, if_neg (by simp [h1]), if_neg (by simp [h2]), if_neg (by simp [h3]),
    if_pos (startsWith_append plannedNo s)]
  rw [show plannedNo.length = plannedNo.length from rfl, drop_append_self]

theorem stripOnce_dashdash (s : List Char) :
    stripOnce (dashdash ++ s) = some (lstrip s) := by
  have h1 : startsWith star (dashdash ++ s) = false := startsWith_cons_ne (by decide)
  have h2 : startsWith gift (dashdash ++ s) = false := startsWith_cons_ne (by decide)
  have h3 : startsWith plannedYes (dashdash ++ s) = false := startsWith_cons_ne (by decide)
  have h4 : startsWith plannedNo (dashdash ++ s) = false := startsWith_cons_ne (by decide)
  rw [stripOnce, if_neg (by simp [h1]), if_neg (by simp [h2]), if_neg (by simp [h3]),
    if_neg (by simp [h4]), if_pos (startsWith_append dashdash s)]
  rw [show dashdash.length = dashdash.length from rfl, drop_append_self]

theorem stripOnce_head_ne {c : Char} (s : List Char)
    (h1 : ('⭐' == c) = false) (h2 : ('🎁' == c) = false)
    (h3 : ('🗓' == c) = false) (h4 : ('🎲' == c) = false)
    (h5 : ('-' == c) = false) : stripOnce (c :: s) = none := by
  have e1 : startsWith star (c :: s) = false := startsWith_cons_ne h1
  have e2 : startsWith gift (c :: s) = false := startsWith_cons_ne h2
  have e3 : startsWith plannedYes (c :: s) = false := startsWith_cons_ne h3
  have e4 : startsWith plannedNo (c :: s) = false := startsWith_cons_ne h4
  have e5 : startsWith dashdash (c :: s) = false := startsWith_cons_ne h5
  simp [stripOnce, e1, e2, e3, e4, e5]

theorem stripOnce_brace (s : List Char) : stripOnce ('{' :: s) = none :=
  stripOnce_head_ne s (by decide) (by decide) (by decide) (by decide) (by decide)

theorem stripLoopRun_star (s : List Char) :
    stripLoopRun (star ++ s) = stripLoopRun (lstrip s) := by
  rw [stripLoopRun_eq, stripOnce_star]

theorem stripLoopRun_gift (s : List Char) :
    stripLoopRun (gift ++ s) = stripLoopRun (lstrip s) := by
  rw [stripLoopRun_eq, stripOnce_gift]

theorem stripLoopRun_plannedYes (s : List Char) :
    stripLoopRun (plannedYes ++ s) = stripLoopRun (lstrip s) := by
  rw [stripLoopRun_eq, stripOnce_plannedYes]

theorem stripLoopRun_plannedNo (s : List Char) :
    stripLoopRun (plannedNo ++ s) = stripLoopRun (lstrip s) := by
  rw [stripLoopRun_eq, stripOnce_plannedNo]

theorem stripLoopRun_dashdash (s : List Char) :
    stripLoopRun (dashdash ++ s) = stripLoopRun (lstrip s) := by
  rw [stripLoopRun_eq, stripOnce_dashdash]

theorem stripLoopRun_fix_aux :
    ∀ (n : Nat) (s : List Char), s.length ≤ n → stripOnce (stripLoopRun s) = none := by
  intro n
  induction n with
  | zero =>
    intro s hs
    have hs0 : s = [] := List.length_eq_zero.mp (Nat.le_zero.mp hs)
    subst hs0
    rw [stripLoopRun_eq]
    decide
  | succ n ih =>
    intro s hs
    rw [stripLoopRun_eq]
    cases hso : stripOnce s with
    | none => exact hso
    | some s2 =>
      have := stripOnce_length hso
      exact ih s2 (by omega)

theorem stripOnce_stripLoopRun (s : List Char) :
    stripOnce (stripLoopRun s) = none :=
  stripLoopRun_fix_aux s.length s le_rfl

theorem stripLoopRun_lstrip_aux :
    ∀ (n : Nat) (s : List Char), s.length ≤ n → lstrip s = s →
    lstrip (stripLoopRun s) = stripLoopRun s := by
  intro n
  induction n with
  | zero =>
    intro s hs hl
    have hs0 : s = [] := List.length_eq_zero.mp (Nat.le_zero.mp hs)
    subst hs0
    rw [stripLoopRun_eq]
    decide
  | succ n ih =>
    intro s hs hl
    rw [stripLoopRun_eq]
    cases hso : stripOnce s with
    | none => exact hl
    | some s2 =>
      have hlen := stripOnce_length hso
      have hs2 : lstrip s2 = s2 := by
        unfold stripOnce at hso
        split_ifs at hso <;> first
        | (injection hso with hso ; rw [← hso] ; exact lstrip_idem _)
        | exact absurd hso (by simp)
      exact ih s2 (by omega) hs2

theorem lstrip_strip_leading_symbols (raw : List Char) :
    lstrip (strip_leading_symbols raw) = strip_leading_symbols raw :=
  stripLoopRun_lstrip_aux (lstrip raw).length (lstrip raw) le_rfl (lstrip_idem raw)

theorem stripOnce_strip_leading_symbols (raw : List Char) :
    stripOnce (strip_leading_symbols raw) = none :=
  stripOnce_stripLoopRun (lstrip raw)

/-- Decimal digit predicate (regex digit class). -/
def isDigit (c : Char) : Bool := decide (48 ≤ c.toNat ∧ c.toNat ≤ 57)

/-- Numeric value of a decimal digit character. -/
def charVal (c : Char) : Nat := c.toNat - 48

/-- Numeric value of a digit string (int applied to a decimal literal). -/
def digitsVal (ds : List Char) : Nat := ds.foldl (fun a c => 10 * a + charVal c) 0

/-- One repetition of the anchored tag-group regex: optional whitespace, an
opening brace, one or more non-closing-brace characters, a closing brace.
Returns the consumed prefix and the remainder. -/
def matchOneTag (s : List Char) : Option (List Char × List Char) :=
  match s.dropWhile isWs with
  | [] => none
  | c0 :: rest =>
    if c0 = '{' then
      match rest.dropWhile (fun x => x ≠ '}') with
      | [] => none
      | b :: rest2 =>
        if rest.takeWhile (fun x => x ≠ '}') = [] then none
        else some (s.takeWhile isWs ++ c0 :: (rest.takeWhile (fun x => x ≠ '}') ++ [b]), rest2)
    else none

/-- Greedy one-or-more repetition of the tag group (the anchored tag-run
regex match of parse_task), with explicit fuel. Returns the full matched
prefix and the remainder. -/
def tagRunF : Nat → List Char → Option (List Char × List Char)
  | 0, _ => none
  | f + 1, s =>
    match matchOneTag s with
    | none => none
    | some (c, r) =>
      match tagRunF f r with
      | some (c2, r2) => some (c ++ c2, r2)
      | none => some (c, r)

/-- The anchored tag-run regex match with sufficient fuel. -/
def tagRun (s : List Char) : Option (List Char × List Char) :=
  tagRunF (s.length + 1) s

/-- Match of the planned-duration regex at the head of the string: an opening
brace, the letter p, one or more digits (hours), a colon, exactly two digits
(minutes), a closing brace. Returns the two captured groups as numbers. -/
def matchTimeAt (s : List Char) : Option (Nat × Nat) :=
  match s with
  | '{' :: 'p' :: rest =>
    let ds := rest.takeWhile isDigit
    if ds = [] then none
    else
      match rest.dropWhile isDigit with
      | ':' :: d1 :: d2 :: '}' :: _ =>
        if isDigit d1 ∧ isDigit d2 then
          some (digitsVal ds, 10 * charVal d1 + charVal d2)
        else none
      | _ => none
  | _ => none

/-- Leftmost search of the planned-duration regex over the whole string
(re.search semantics). -/
def findTime : List Char → Option (Nat × Nat)
  | [] => none
  | c :: rest =>
    match matchTimeAt (c :: rest) with
    | some v => some v
    | none => findTime rest

/-- parse_task from main.py: strip leading decoration, match a leading run of
brace tags (tags and remaining text, both stripped), and search the whole
stripped string for a planned-duration tag. -/
def parse_task (raw : List Char) : List Char × List Char × Option Nat :=
  let s := strip_leading_symbols raw
  let planned := (findTime s).map (fun hm => hm.1 * 60 + hm.2)
  match tagRun s with
  | some (g, r) => (pstrip g, pstrip r, planned)
  | none => ([], s, planned)


/-- The shape of a single consumed tag group: whitespace, an opening brace, a
nonempty closing-brace-free body, a closing brace. -/
def TagAtom (c : List Char) : Prop :=
  ∃ w body, c = w ++ '{' :: (body ++ ['}']) ∧ (∀ x ∈ w, isWs x = true) ∧
    body ≠ [] ∧ ∀ x ∈ body, x ≠ '}'

theorem takeWhile_all_append {p : Char → Bool} {w : List Char}
    (hw : ∀ x ∈ w, p x = true) {a : Char} (ha : p a = false) (t : List Char) :
    ((w ++ a :: t).takeWhile p) = w := by
  induction w with
  | nil => simp [List.takeWhile_cons, ha]
  | cons x xs ih =>
    have hx : p x = true := hw x (by simp)
    simp only [List.cons_append, List.takeWhile_cons_of_pos hx]
    rw [ih (fun y hy => hw y (by simp [hy]))]

theorem dropWhile_all_append {p : Char → Bool} {w : List Char}
    (hw : ∀ x ∈ w, p x = true) {a : Char} (ha : p a = false) (t : List Char) :
    ((w ++ a :: t).dropWhile p) = a :: t := by
  induction w with
  | nil => simp [List.dropWhile_cons, ha]
  | cons x xs ih =>
    have hx : p x = true := hw x (by simp)
    simp only [List.cons_append, List.dropWhile_cons_of_pos hx]
    exact ih (fun y hy => hw y (by simp [hy]))

theorem matchOneTag_some {s c r : List Char} (h : matchOneTag s = some (c, r)) :
    TagAtom c ∧ s = c ++ r ∧ c ≠ [] := by
  unfold matchOneTag at h
  cases hd : s.dropWhile isWs with
  | nil => rw [hd] at h; exact absurd h (by simp)
  | cons c0 rest =>
    rw [hd] at h
    simp only [] at h
    by_cases hc0 : c0 = '{'
    · rw [if_pos hc0] at h
      cases hdr : rest.dropWhile (fun x => x ≠ '}') with
      | nil => rw [hdr] at h; exact absurd h (by simp)
      | cons b rest2 =>
        rw [hdr] at h
        simp only [] at h
        by_cases hbody : rest.takeWhile (fun x => x ≠ '}') = []
        · rw [if_pos hbody] at h; exact absurd h (by simp)
        · rw [if_neg hbody] at h
          have hb : b = '}' := by
            have hh := List.head?_dropWhile_not (fun x => decide (x ≠ '}')) rest
            rw [hdr] at hh
            simpa using hh
          injection h with h
          rw [Prod.mk.injEq] at h
          obtain ⟨hc, hr⟩ := h
          subst hc0 hb
          have h1 : s.takeWhile isWs ++ '{' :: rest = s := by
            conv_rhs => rw [← List.takeWhile_append_dropWhile isWs s]
            rw [hd]
          have h2 : rest.takeWhile (fun x => x ≠ '}') ++ '}' :: rest2 = rest := by
            conv_rhs => rw [← List.takeWhile_append_dropWhile (fun x => x ≠ '}') rest]
            rw [hdr]
          refine ⟨⟨s.takeWhile isWs, rest.takeWhile (fun x => x ≠ '}'), hc.symm, ?_,
            hbody, ?_⟩, ?_, ?_⟩
          · intro x hx
            exact List.mem_takeWhile_imp hx
          · intro x hx
            simpa using List.mem_takeWhile_imp hx
          · rw [← hc, ← hr]
            conv_lhs => rw [← h1]
            conv_lhs => rw [← h2]
            simp
          · rw [← hc]
            simp
    · rw [if_neg hc0] at h
      exact absurd h (by simp)

theorem matchOneTag_atom_append {c : List Char} (hc : TagAtom c) (z : List Char) :
    matchOneTag (c ++ z) = some (c, z) := by
  obtain ⟨w, body, rfl, hw, hbody, hmem⟩ := hc
  have hbraceWs : isWs '{' = false := by decide
  have hdw : ((w ++ '{' :: (body ++ ['}'])) ++ z).dropWhile isWs =
      '{' :: (body ++ '}' :: z) := by
    rw [List.append_assoc, List.cons_append, List.append_assoc, List.cons_append]
    exact dropWhile_all_append hw hbraceWs _
  have htw : ((w ++ '{' :: (body ++ ['}'])) ++ z).takeWhile isWs = w := by
    rw [List.append_assoc, List.cons_append, List.append_assoc, List.cons_append]
    exact takeWhile_all_append hw hbraceWs _
  have hbmem : ∀ x ∈ body, (fun x => decide (x ≠ '}')) x = true := by
    intro x hx
    simpa using hmem x hx
  have hne : (fun x => decide (x ≠ '}')) '}' = false := by decide
  have hdr : (body ++ '}' :: z).dropWhile (fun x => x ≠ '}') = '}' :: z :=
    dropWhile_all_append hbmem hne z
  have htr : (body ++ '}' :: z).takeWhile (fun x => x ≠ '}') = body :=
    takeWhile_all_append hbmem hne z
  unfold matchOneTag
  split
  · rename_i heq
    rw [hdw] at heq
    exact absurd heq (by simp)
  · rename_i c0 rest heq
    rw [hdw] at heq
    injection heq with hA hB
    subst hA
    subst hB
    rw [if_pos rfl]
    split
    · rename_i heq2
      rw [hdr] at heq2
      exact absurd heq2 (by simp)
    · rename_i b rest2 heq2
      rw [hdr] at heq2
      injection heq2 with hA2 hB2
      subst hA2
      subst hB2
      rw [htr, if_neg hbody, htw]

theorem matchOneTag_rest_length {s c r : List Char}
    (h : matchOneTag s = some (c, r)) : r.length < s.length := by
  obtain ⟨-, hs, hc⟩ := matchOneTag_some h
  rw [hs]
  cases c with
  | nil => exact absurd rfl hc
  | cons a t => simp; omega

theorem tagRunF_fuel {f1 f2 : Nat} {s : List Char}
    (h1 : s.length < f1) (h2 : s.length < f2) : tagRunF f1 s = tagRunF f2 s := by
  induction f1 generalizing s f2 with
  | zero => omega
  | succ n ih =>
    cases f2 with
    | zero => omega
    | succ m =>
      simp only [tagRunF]
      cases hm : matchOneTag s with
      | none => rfl
      | some cr =>
        obtain ⟨c, r⟩ := cr
        have hlt := matchOneTag_rest_length hm
        simp only []
        rw [@ih m r (by omega) (by omega)]

theorem tagRunF_succ (f : Nat) (s : List Char) :
    tagRunF (f + 1) s = match matchOneTag s with
      | none => none
      | some (c, r) =>
        match tagRunF f r with
        | some (c2, r2) => some (c ++ c2, r2)
        | none => some (c, r) := rfl

theorem tagRun_eq (s : List Char) :
    tagRun s = match matchOneTag s with
      | none => none
      | some (c, r) =>
        match tagRun r with
        | some (c2, r2) => some (c ++ c2, r2)
        | none => some (c, r) := by
  show tagRunF (s.length + 1) s = _
  rw [tagRunF_succ]
  cases hm : matchOneTag s with
  | none => rfl
  | some cr =>
    obtain ⟨c, r⟩ := cr
    have hlt := matchOneTag_rest_length hm
    have hfe : tagRunF s.length r = tagRun r :=
      @tagRunF_fuel s.length (r.length + 1) r (by omega) (by omega)
    exact congrArg
      (fun x => match x with
        | some (c2, r2) => some (c ++ c2, r2)
        | none => some (c, r)) hfe

theorem tagRun_none_iff {s : List Char} : tagRun s = none ↔ matchOneTag s = none := by
  rw [tagRun_eq]
  cases hm : matchOneTag s with
  | none => simp
  | some cr =>
    obtain ⟨c, r⟩ := cr
    show (match tagRun r with
      | some (c2, r2) => some (c ++ c2, r2)
      | none => some (c, r)) = none ↔ some (c, r) = none
    cases htr : tagRun r with
    | none => simp
    | some cr2 =>
      obtain ⟨c2, r2⟩ := cr2
      simp

theorem matchOneTag_nil : matchOneTag [] = none := rfl

theorem tagRun_nil : tagRun [] = none := rfl


theorem tagAtom_ne_nil {c : List Char} (h : TagAtom c) : c ≠ [] := by
  obtain ⟨w, body, rfl, -, -, -⟩ := h
  simp

theorem tagAtom_last {c : List Char} (h : TagAtom c) : c.getLast? = some '}' := by
  obtain ⟨w, body, rfl, -, -, -⟩ := h
  rw [show w ++ '{' :: (body ++ ['}']) = (w ++ '{' :: body) ++ ['}'] by simp]
  rw [List.getLast?_append_of_ne_nil _ (by simp)]
  rfl

theorem tagAtom_cons_ws {a : Char} {c : List Char} (ha : isWs a = true)
    (h : TagAtom c) : TagAtom (a :: c) := by
  obtain ⟨w, body, rfl, hw, hb, hm⟩ := h
  refine ⟨a :: w, body, by simp, ?_, hb, hm⟩
  intro x hx
  rcases List.mem_cons.mp hx with rfl | hx
  · exact ha
  · exact hw x hx

theorem tagAtom_of_cons_ws {a : Char} {c : List Char} (ha : isWs a = true)
    (h : TagAtom (a :: c)) : TagAtom c := by
  obtain ⟨w, body, heq, hw, hb, hm⟩ := h
  cases w with
  | nil =>
    simp only [List.nil_append] at heq
    injection heq with h1 h2
    subst h1
    exact absurd ha (by decide)
  | cons w0 w2 =>
    simp only [List.cons_append] at heq
    injection heq with h1 h2
    exact ⟨w2, body, h2, fun x hx => hw x (by simp [hx]), hb, hm⟩

theorem tagRun_step {s c r1 : List Char} (hm : matchOneTag s = some (c, r1)) :
    tagRun s = match tagRun r1 with
      | some (c2, r2) => some (c ++ c2, r2)
      | none => some (c, r1) := by
  rw [tagRun_eq, hm]

theorem tagRun_shape_aux :
    ∀ (n : Nat) (s g r : List Char), s.length ≤ n → tagRun s = some (g, r) →
    s = g ++ r ∧ g ≠ [] ∧ g.getLast? = some '}' := by
  intro n
  induction n with
  | zero =>
    intro s g r hs h
    have hs0 : s = [] := List.length_eq_zero.mp (Nat.le_zero.mp hs)
    subst hs0
    rw [tagRun_nil] at h
    exact absurd h (by simp)
  | succ n ih =>
    intro s g r hs h
    cases hm : matchOneTag s with
    | none =>
      rw [tagRun_none_iff.mpr hm] at h
      exact absurd h (by simp)
    | some cr =>
      obtain ⟨c, r1⟩ := cr
      obtain ⟨hAtom, hsEq, hcne⟩ := matchOneTag_some hm
      have hlt : r1.length < s.length := matchOneTag_rest_length hm
      have h2 := (tagRun_step hm).symm.trans h
      cases htr : tagRun r1 with
      | none =>
        rw [htr] at h2
        simp only [Option.some.injEq, Prod.mk.injEq] at h2
        obtain ⟨rfl, rfl⟩ := h2
        exact ⟨hsEq, hcne, tagAtom_last hAtom⟩
      | some cr2 =>
        obtain ⟨c2, r2⟩ := cr2
        rw [htr] at h2
        simp only [Option.some.injEq, Prod.mk.injEq] at h2
        obtain ⟨hg, hr⟩ := h2
        obtain ⟨hr1, hc2ne, hc2last⟩ := ih r1 c2 r2 (by omega) htr
        refine ⟨?_, ?_, ?_⟩
        · rw [← hg, ← hr, hsEq, hr1]
          simp
        · rw [← hg]
          simp [hcne]
        · rw [← hg, List.getLast?_append_of_ne_nil _ hc2ne]
          exact hc2last

theorem tagRun_shape {s g r : List Char} (h : tagRun s = some (g, r)) :
    s = g ++ r ∧ g ≠ [] ∧ g.getLast? = some '}' :=
  tagRun_shape_aux s.length s g r le_rfl h

theorem tagRun_rest_none_aux :
    ∀ (n : Nat) (s g r : List Char), s.length ≤ n → tagRun s = some (g, r) →
    matchOneTag r = none := by
  intro n
  induction n with
  | zero =>
    intro s g r hs h
    have hs0 : s = [] := List.length_eq_zero.mp (Nat.le_zero.mp hs)
    subst hs0
    rw [tagRun_nil] at h
    exact absurd h (by simp)
  | succ n ih =>
    intro s g r hs h
    cases hm : matchOneTag s with
    | none =>
      rw [tagRun_none_iff.mpr hm] at h
      exact absurd h (by simp)
    | some cr =>
      obtain ⟨c, r1⟩ := cr
      have hlt : r1.length < s.length := matchOneTag_rest_length hm
      have h2 := (tagRun_step hm).symm.trans h
      cases htr : tagRun r1 with
      | none =>
        rw [htr] at h2
        simp only [Option.some.injEq, Prod.mk.injEq] at h2
        obtain ⟨rfl, rfl⟩ := h2
        exact tagRun_none_iff.mp htr
      | some cr2 =>
        obtain ⟨c2, r2⟩ := cr2
        rw [htr] at h2
        simp only [Option.some.injEq, Prod.mk.injEq] at h2
        obtain ⟨rfl, rfl⟩ := h2
        exact ih r1 c2 r2 (by omega) htr

theorem tagRun_rest_none {s g r : List Char} (h : tagRun s = some (g, r)) :
    matchOneTag r = none :=
  tagRun_rest_none_aux s.length s g r le_rfl h

theorem tagRun_self_aux :
    ∀ (n : Nat) (s g r : List Char), s.length ≤ n → tagRun s = some (g, r) →
    tagRun g = some (g, []) := by
  intro n
  induction n with
  | zero =>
    intro s g r hs h
    have hs0 : s = [] := List.length_eq_zero.mp (Nat.le_zero.mp hs)
    subst hs0
    rw [tagRun_nil] at h
    exact absurd h (by simp)
  | succ n ih =>
    intro s g r hs h
    cases hm : matchOneTag s with
    | none =>
      rw [tagRun_none_iff.mpr hm] at h
      exact absurd h (by simp)
    | some cr =>
      obtain ⟨c, r1⟩ := cr
      obtain ⟨hAtom, hsEq, hcne⟩ := matchOneTag_some hm
      have hlt : r1.length < s.length := matchOneTag_rest_length hm
      have h2 := (tagRun_step hm).symm.trans h
      cases htr : tagRun r1 with
      | none =>
        rw [htr] at h2
        simp only [Option.some.injEq, Prod.mk.injEq] at h2
        obtain ⟨rfl, rfl⟩ := h2
        have hmg : matchOneTag c = some (c, []) := by
          have hx := matchOneTag_atom_append hAtom []
          rwa [List.append_nil] at hx
        rw [tagRun_step hmg, tagRun_nil]
      | some cr2 =>
        obtain ⟨c2, r2⟩ := cr2
        rw [htr] at h2
        simp only [Option.some.injEq, Prod.mk.injEq] at h2
        obtain ⟨rfl, rfl⟩ := h2
        have hc2run : tagRun c2 = some (c2, []) := ih r1 c2 r2 (by omega) htr
        have hmg : matchOneTag (c ++ c2) = some (c, c2) := matchOneTag_atom_append hAtom c2
        rw [tagRun_step hmg, hc2run]

theorem tagRun_self {s g r : List Char} (h : tagRun s = some (g, r)) :
    tagRun g = some (g, []) :=
  tagRun_self_aux s.length s g r le_rfl h

theorem tagRun_head {s g r : List Char} (h : tagRun s = some (g, r))
    (hl : lstrip s = s) : g.head? = some '{' := by
  cases hm : matchOneTag s with
  | none =>
    rw [tagRun_none_iff.mpr hm] at h
    exact absurd h (by simp)
  | some cr =>
    obtain ⟨c, r1⟩ := cr
    obtain ⟨hAtom, hsEq, hcne⟩ := matchOneTag_some hm
    obtain ⟨w, body, hcw, hw, -, -⟩ := hAtom
    have hchead : c.head? = some '{' := by
      cases w with
      | nil => rw [hcw]; simp
      | cons w0 w2 =>
        have hw0 : isWs w0 = true := hw w0 (by simp)
        rw [hcw] at hsEq
        rw [hsEq] at hl
        simp only [List.cons_append] at hl
        exact absurd (lstrip_eq_self_head hl) (by simp [hw0])
    have h2 := (tagRun_step hm).symm.trans h
    cases htr : tagRun r1 with
    | none =>
      rw [htr] at h2
      simp only [Option.some.injEq, Prod.mk.injEq] at h2
      obtain ⟨rfl, rfl⟩ := h2
      exact hchead
    | some cr2 =>
      obtain ⟨c2, r2⟩ := cr2
      rw [htr] at h2
      simp only [Option.some.injEq, Prod.mk.injEq] at h2
      obtain ⟨rfl, rfl⟩ := h2
      cases c with
      | nil => exact absurd rfl hcne
      | cons a t => simpa using hchead

theorem tagRun_full_append_aux :
    ∀ (n : Nat) (t w : List Char), t.length ≤ n → tagRun t = some (t, []) →
    tagRun (t ++ w) = match tagRun w with
      | some (g2, r2) => some (t ++ g2, r2)
      | none => some (t, w) := by
  intro n
  induction n with
  | zero =>
    intro t w hs h
    have hs0 : t = [] := List.length_eq_zero.mp (Nat.le_zero.mp hs)
    subst hs0
    rw [tagRun_nil] at h
    exact absurd h (by simp)
  | succ n ih =>
    intro t w hs h
    cases hm : matchOneTag t with
    | none =>
      rw [tagRun_none_iff.mpr hm] at h
      exact absurd h (by simp)
    | some cr =>
      obtain ⟨c, r1⟩ := cr
      obtain ⟨hAtom, htEq, hcne⟩ := matchOneTag_some hm
      have hlt : r1.length < t.length := matchOneTag_rest_length hm
      have h2 := (tagRun_step hm).symm.trans h
      cases htr : tagRun r1 with
      | none =>
        rw [htr] at h2
        simp only [Option.some.injEq, Prod.mk.injEq] at h2
        obtain ⟨hct, hr1nil⟩ := h2
        subst hr1nil
        rw [List.append_nil] at htEq
        subst htEq
        have hmw : matchOneTag (t ++ w) = some (t, w) := matchOneTag_atom_append hAtom w
        rw [tagRun_step hmw]
      | some cr2 =>
        obtain ⟨c2, r2⟩ := cr2
        rw [htr] at h2
        simp only [Option.some.injEq, Prod.mk.injEq] at h2
        obtain ⟨hct, hr2nil⟩ := h2
        subst hr2nil
        have hr1c2 : r1 = c2 := by
          have hx : c ++ c2 = c ++ r1 := by rw [hct, htEq]
          exact (List.append_cancel_left hx).symm
        subst hr1c2
        have hih := ih r1 w (by omega) htr
        have hmw : matchOneTag (c ++ (r1 ++ w)) = some (c, r1 ++ w) :=
          matchOneTag_atom_append hAtom (r1 ++ w)
        have hassoc : t ++ w = c ++ (r1 ++ w) := by rw [← hct]; simp
        rw [hassoc, tagRun_step hmw, hih]
        cases htw : tagRun w with
        | none =>
          rw [← hct]
        | some cr3 =>
          obtain ⟨g3, r3⟩ := cr3
          rw [← hct]
          simp

theorem tagRun_full_append {t w : List Char} (h : tagRun t = some (t, [])) :
    tagRun (t ++ w) = match tagRun w with
      | some (g2, r2) => some (t ++ g2, r2)
      | none => some (t, w) :=
  tagRun_full_append_aux t.length t w le_rfl h

theorem matchOneTag_cons_ws_none {a : Char} {s : List Char} (ha : isWs a = true) :
    matchOneTag (a :: s) = none ↔ matchOneTag s = none := by
  constructor
  · intro h
    cases hm : matchOneTag s with
    | none => rfl
    | some cr =>
      obtain ⟨c, r⟩ := cr
      obtain ⟨hAtom, hsEq, -⟩ := matchOneTag_some hm
      have : matchOneTag (a :: s) = some (a :: c, r) := by
        have := matchOneTag_atom_append (tagAtom_cons_ws ha hAtom) r
        rwa [show (a :: c) ++ r = a :: (c ++ r) from rfl, ← hsEq] at this
      rw [this] at h
      exact absurd h (by simp)
  · intro h
    cases hm : matchOneTag (a :: s) with
    | none => rfl
    | some cr =>
      obtain ⟨c, r⟩ := cr
      obtain ⟨hAtom, hsEq, hcne⟩ := matchOneTag_some hm
      cases c with
      | nil => exact absurd rfl hcne
      | cons c0 c2 =>
        simp only [List.cons_append] at hsEq
        injection hsEq with h1 h2
        subst h1
        have hAtom2 : TagAtom c2 := tagAtom_of_cons_ws ha hAtom
        have : matchOneTag s = some (c2, r) := by
          rw [h2]
          exact matchOneTag_atom_append hAtom2 r
        rw [this] at h
        exact absurd h (by simp)

theorem matchOneTag_lstrip_none {s : List Char} :
    matchOneTag (lstrip s) = none ↔ matchOneTag s = none := by
  induction s with
  | nil => rfl
  | cons a t ih =>
    by_cases ha : isWs a = true
    · rw [lstrip_cons_ws t ha]
      rw [ih]
      exact (matchOneTag_cons_ws_none ha).symm
    · rw [lstrip_cons_not_ws t (by simpa using ha)]

theorem matchOneTag_rstrip_none {s : List Char} (h : matchOneTag s = none) :
    matchOneTag (rstrip s) = none := by
  cases hm : matchOneTag (rstrip s) with
  | none => rfl
  | some cr =>
    obtain ⟨c, r⟩ := cr
    obtain ⟨hAtom, hsEq, -⟩ := matchOneTag_some hm
    obtain ⟨w, hw, -⟩ := rstrip_decomp s
    rw [hsEq] at hw
    have : matchOneTag s = some (c, r ++ w) := by
      rw [hw, List.append_assoc]
      exact matchOneTag_atom_append hAtom (r ++ w)
    rw [this] at h
    exact absurd h (by simp)

theorem matchOneTag_pstrip_none {s : List Char} (h : matchOneTag s = none) :
    matchOneTag (pstrip s) = none :=
  matchOneTag_rstrip_none (matchOneTag_lstrip_none.mpr h)


/-- The configuration surface of config.py (environment-backed, hot-swappable;
modeled as an explicitly passed value). Rating-map keys are fixed at the
digits 0 to 3; their values, the category weights, the thresholds and the
archetype strings are configurable. Symbol glyphs are hardcoded in the source
and therefore stay global constants here. -/
structure Config where
  rating0 : ℚ
  rating1 : ℚ
  rating2 : ℚ
  rating3 : ℚ
  wLeverage : ℚ
  wConfidence : ℚ
  wGoals : ℚ
  wPriority : ℚ
  wDeadline : ℚ
  wComplex : ℚ
  wTime : ℚ
  wRisk : ℚ
  wFun : ℚ
  thLow : ℤ
  thMed : ℤ
  thHigh : ℤ
  thImpact3 : ℚ
  thImpact2 : ℚ
  thImpact1 : ℚ
  thUrgency : ℚ
  thExecution : ℚ
  thSurprise : ℚ
  thPlanned : ℚ
  stopRuleFactor : ℚ
  archQuickWin : String
  archBigBet : String
  archFiller : String
  archSlog : String

/-- The default configuration values from Config.reload in config.py. -/
def defaultConfig : Config where
  rating0 := 0
  rating1 := 3 / 10
  rating2 := 6 / 10
  rating3 := 1
  wLeverage := 1 / 2
  wConfidence := 1 / 4
  wGoals := 1 / 4
  wPriority := 1 / 2
  wDeadline := 1 / 2
  wComplex := 4 / 10
  wTime := 3 / 10
  wRisk := 2 / 10
  wFun := 1 / 10
  thLow := 30
  thMed := 90
  thHigh := 150
  thImpact3 := 3 / 4
  thImpact2 := 1 / 2
  thImpact1 := 1 / 4
  thUrgency := 1 / 2
  thExecution := 1 / 2
  thSurprise := 1 / 2
  thPlanned := 1 / 2
  stopRuleFactor := 3 / 2
  archQuickWin := "High leverage for low friction—a pure Quick Win."
  archBigBet := "High value, but demanding. Schedule deep work for this."
  archFiller := "Easy, but low leverage. Good for low-energy blocks."
  archSlog := "Hard work for little return. Can you eliminate or automate?"

/-- Lookup in Config.RATING_MAP (keys are the digit strings 0 to 3). -/
def ratingMap (cfg : Config) (t : List Char) : Option ℚ :=
  if t = ['0'] then some cfg.rating0
  else if t = ['1'] then some cfg.rating1
  else if t = ['2'] then some cfg.rating2
  else if t = ['3'] then some cfg.rating3
  else none

/-- get_time_score from main.py: map planned minutes to a rating value via
the three time thresholds (boundaries inclusive on the lower tier). -/
def get_time_score (cfg : Config) (minutes : ℤ) : ℚ :=
  if minutes ≤ cfg.thLow then cfg.rating0
  else if minutes ≤ cfg.thMed then cfg.rating1
  else if minutes ≤ cfg.thHigh then cfg.rating2
  else cfg.rating3

/-- estimate_time_minutes from main.py: base duration from a fixed table keyed
by the canonical complexity rating values (default 45 off-table), scaled by
risk and surprise factors, rounded up to the next multiple of five minutes. -/
def estimate_time_minutes (rComplex rRisk rSurprise : ℚ) : ℤ :=
  let base : ℚ :=
    if rComplex = 0 then 15
    else if rComplex = 3 / 10 then 45
    else if rComplex = 6 / 10 then 90
    else if rComplex = 1 then 180
    else 45
  let rawMinutes := base * (1 + rRisk * (3 / 10)) * (1 + rSurprise * (2 / 10))
  ⌈rawMinutes / 5⌉ * 5

/-- compute_impact from main.py. -/
def compute_impact (cfg : Config) (rLeverage rConfidence rGoals : ℚ) : ℚ :=
  rLeverage * cfg.wLeverage + rConfidence * cfg.wConfidence + rGoals * cfg.wGoals

/-- compute_urgency from main.py. -/
def compute_urgency (cfg : Config) (rPriority rDeadline : ℚ) : ℚ :=
  rPriority * cfg.wPriority + rDeadline * cfg.wDeadline

/-- compute_execution from main.py. -/
def compute_execution (cfg : Config) (rComplex rTime rRisk rFun : ℚ) : ℚ :=
  rComplex * cfg.wComplex + rTime * cfg.wTime + rRisk * cfg.wRisk + rFun * cfg.wFun

/-- The star glyph repeated (Python string multiplication). -/
def starRep : Nat → List Char
  | 0 => []
  | n + 1 => star ++ starRep n

/-- get_impact_symbol from main.py: star tiers with strict greater-than. -/
def get_impact_symbol (cfg : Config) (score : ℚ) : List Char :=
  if cfg.thImpact3 < score then starRep 3
  else if cfg.thImpact2 < score then starRep 2
  else if cfg.thImpact1 < score then starRep 1
  else []

/-- get_urgency_symbol from main.py (inclusive threshold). -/
def get_urgency_symbol (cfg : Config) (score : ℚ) : List Char :=
  if cfg.thUrgency ≤ score then ['🚨'] else ['🐢']

/-- get_execution_symbol from main.py (inclusive threshold). -/
def get_execution_symbol (cfg : Config) (score : ℚ) : List Char :=
  if cfg.thExecution ≤ score then ['🥵'] else ['🍭']

/-- get_surprise_symbol from main.py (inclusive threshold, possibly empty). -/
def get_surprise_symbol (cfg : Config) (rating : ℚ) : List Char :=
  if cfg.thSurprise ≤ rating then gift else []

/-- get_planned_symbol from main.py (inclusive threshold). -/
def get_planned_symbol (cfg : Config) (rating : ℚ) : List Char :=
  if cfg.thPlanned ≤ rating then plannedYes else plannedNo

/-- format_output from main.py: impact and surprise symbols abut, a literal
double-dash is inserted only when at least one of them is non-empty, then the
planned symbol, then the tags abutting when non-empty, then one space and the
clean text. -/
def format_output (impactSym surpriseSym plannedSym tags text : List Char) :
    List Char :=
  let separator := if impactSym ≠ [] ∨ surpriseSym ≠ [] then dashdash else []
  let finalPrefix := impactSym ++ surpriseSym ++ separator ++ plannedSym
  if tags ≠ [] then finalPrefix ++ tags ++ ' ' :: text
  else finalPrefix ++ ' ' :: text

/-- get_analysis_text from main.py: optional clarity sentence, one of four
archetype sentences chosen on the strict half quadrant, optional critical
priority sentence. -/
def get_analysis_text (cfg : Config) (sImpact sExecution sUrgency rSurprise : ℚ) :
    String :=
  let pre := if cfg.thSurprise ≤ rSurprise then "Scope is unclear (🎁). " else ""
  let highImpact := (1 / 2 : ℚ) < sImpact
  let highExecution := (1 / 2 : ℚ) < sExecution
  let core :=
    if highImpact ∧ ¬ highExecution then cfg.archQuickWin
    else if highImpact ∧ highExecution then cfg.archBigBet
    else if ¬ highImpact ∧ ¬ highExecution then cfg.archFiller
    else cfg.archSlog
  let suf := if cfg.thUrgency ≤ sUrgency then " Critical priority." else ""
  pre ++ core ++ suf

/-- Python str.split on a comma. -/
def splitComma : List Char → List (List Char)
  | [] => [[]]
  | c :: rest =>
    if c = ',' then [] :: splitComma rest
    else
      match splitComma rest with
      | p :: ps => (c :: p) :: ps
      | [] => [[c]]

/-- The token list parse_ratings works on: remove space characters, then
split on commas. -/
def ratingParts (s : List Char) : List (List Char) :=
  splitComma (s.filter (fun c => c ≠ ' '))

/-- The body of the conversion loop of parse_ratings: an underscore at index
six with planned minutes available resolves via get_time_score, any
rating-map key resolves to its value, anything else yields none. -/
def resolveTok (cfg : Config) (pm : Option Nat) (i : Nat) (t : List Char) : Option ℚ :=
  if t = ['_'] ∧ i = 6 ∧ pm.isSome
  then pm.map (fun m => get_time_score cfg (m : ℤ))
  else ratingMap cfg t

/-- The conversion loop of parse_ratings: walk the tokens with their indices,
resolving each and aborting the whole parse on the first failure. -/
def convertRatings (cfg : Config) (pm : Option Nat) : Nat → List (List Char) → Option (List ℚ)
  | _, [] => some []
  | i, t :: ts =>
    match resolveTok cfg pm i t with
    | some v => (convertRatings cfg pm (i + 1) ts).map (fun vs => v :: vs)
    | none => none

/-- parse_ratings from main.py: exactly eleven comma-separated tokens (after
removing spaces), converted all-or-nothing. -/
def parse_ratings (cfg : Config) (s : List Char) (pm : Option Nat) : Option (List ℚ) :=
  if (ratingParts s).length = 11 then convertRatings cfg pm 0 (ratingParts s)
  else none

/-- Decimal digit character (for values below ten this is what Python str
prints). -/
def digitCh (n : Nat) : Char := Char.ofNat (48 + n)

/-- Decimal representation of a natural number (Python str on an int), with
explicit fuel. -/
def natDigitsF : Nat → Nat → List Char
  | 0, _ => []
  | f + 1, n =>
    if n < 10 then [digitCh n]
    else natDigitsF f (n / 10) ++ [digitCh (n % 10)]

/-- Decimal representation of a natural number with sufficient fuel. -/
def natDigits (n : Nat) : List Char := natDigitsF (n + 1) n

/-- Python percent-02d formatting of a natural number: zero-pad to width two. -/
def twoPad (n : Nat) : List Char :=
  if n < 10 then '0' :: [digitCh n] else natDigits n

/-- The estimated-time tag built by run_with_ratings: an opening brace, p,
the hours, a colon, the zero-padded minutes, a closing brace. -/
def timeTag (m : Nat) : List Char :=
  '{' :: 'p' :: (natDigits (m / 60) ++ ':' :: (twoPad (m % 60) ++ ['}']))

theorem natDigitsF_fuel {f1 f2 n : Nat} (h1 : n < f1) (h2 : n < f2) :
    natDigitsF f1 n = natDigitsF f2 n := by
  induction f1 generalizing n f2 with
  | zero => omega
  | succ k ih =>
    cases f2 with
    | zero => omega
    | succ k2 =>
      simp only [natDigitsF]
      by_cases h : n < 10
      · rw [if_pos h, if_pos h]
      · rw [if_neg h, if_neg h]
        have hdiv : n / 10 < n := Nat.div_lt_self (by omega) (by omega)
        rw [@ih k2 (n / 10) (by omega) (by omega)]

theorem natDigits_eq (n : Nat) :
    natDigits n = if n < 10 then [digitCh n]
      else natDigits (n / 10) ++ [digitCh (n % 10)] := by
  by_cases h : n < 10
  · rw [if_pos h]
    unfold natDigits natDigitsF
    rw [if_pos h]
  · rw [if_neg h]
    unfold natDigits
    rw [show natDigitsF (n + 1) n = natDigitsF n (n / 10) ++ [digitCh (n % 10)] from by
      simp only [natDigitsF]
      rw [if_neg h]]
    have hdiv : n / 10 < n := Nat.div_lt_self (by omega) (by omega)
    rw [@natDigitsF_fuel n (n / 10 + 1) (n / 10) (by omega) (by omega)]

theorem digitCh_isDigit {d : Nat} (h : d < 10) : isDigit (digitCh d) = true := by
  interval_cases d <;> decide

theorem charVal_digitCh {d : Nat} (h : d < 10) : charVal (digitCh d) = d := by
  interval_cases d <;> decide

theorem natDigits_all_digits_aux :
    ∀ (b n : Nat), n ≤ b → ∀ c ∈ natDigits n, isDigit c = true := by
  intro b
  induction b with
  | zero =>
    intro n hn c hc
    have hn0 : n = 0 := by omega
    subst hn0
    rw [natDigits_eq] at hc
    rw [if_pos (by omega)] at hc
    simp only [List.mem_singleton] at hc
    subst hc
    exact digitCh_isDigit (by omega)
  | succ b ih =>
    intro n hn c hc
    rw [natDigits_eq] at hc
    by_cases h : n < 10
    · rw [if_pos h] at hc
      simp only [List.mem_singleton] at hc
      subst hc
      exact digitCh_isDigit h
    · rw [if_neg h] at hc
      rcases List.mem_append.mp hc with hc | hc
      · have hdiv : n / 10 < n := Nat.div_lt_self (by omega) (by omega)
        exact ih (n / 10) (by omega) c hc
      · simp only [List.mem_singleton] at hc
        subst hc
        exact digitCh_isDigit (Nat.mod_lt n (by omega))

theorem natDigits_all_digits {n : Nat} : ∀ c ∈ natDigits n, isDigit c = true :=
  natDigits_all_digits_aux n n le_rfl

theorem natDigits_ne_nil (n : Nat) : natDigits n ≠ [] := by
  rw [natDigits_eq]
  split_ifs <;> simp

theorem digitsVal_append_single (a : List Char) (c : Char) :
    digitsVal (a ++ [c]) = 10 * digitsVal a + charVal c := by
  unfold digitsVal
  rw [List.foldl_append]
  rfl

theorem digitsVal_natDigits_aux : ∀ (b n : Nat), n ≤ b → digitsVal (natDigits n) = n := by
  intro b
  induction b with
  | zero =>
    intro n hn
    have hn0 : n = 0 := by omega
    subst hn0
    decide
  | succ b ih =>
    intro n hn
    rw [natDigits_eq]
    by_cases h : n < 10
    · rw [if_pos h]
      unfold digitsVal
      simp only [List.foldl_cons, List.foldl_nil]
      rw [charVal_digitCh h]
      omega
    · rw [if_neg h]
      rw [digitsVal_append_single]
      have hdiv : n / 10 < n := Nat.div_lt_self (by omega) (by omega)
      rw [ih (n / 10) (by omega), charVal_digitCh (Nat.mod_lt n (by omega))]
      omega

theorem digitsVal_natDigits (n : Nat) : digitsVal (natDigits n) = n :=
  digitsVal_natDigits_aux n n le_rfl

theorem isDigit_ne_brace {c : Char} (h : isDigit c = true) : c ≠ '}' := by
  intro hc
  subst hc
  exact absurd h (by decide)

theorem isDigit_ne_colon (c : Char) : isDigit ':' = false := by decide

theorem twoPad_shape {n : Nat} (h : n < 60) :
    ∃ d1 d2, twoPad n = [d1, d2] ∧ isDigit d1 = true ∧ isDigit d2 = true ∧
      10 * charVal d1 + charVal d2 = n := by
  by_cases h10 : n < 10
  · refine ⟨'0', digitCh n, ?_, by decide, digitCh_isDigit h10, ?_⟩
    · rw [twoPad, if_pos h10]
    · rw [charVal_digitCh h10]
      rw [show charVal '0' = 0 from rfl]
      omega
  · refine ⟨digitCh (n / 10), digitCh (n % 10), ?_, digitCh_isDigit (by omega),
      digitCh_isDigit (Nat.mod_lt n (by omega)), ?_⟩
    · rw [twoPad, if_neg h10, natDigits_eq, if_neg (by omega), natDigits_eq,
        if_pos (by omega)]
      rfl
    · rw [charVal_digitCh (by omega), charVal_digitCh (Nat.mod_lt n (by omega))]
      omega

/-- The eleven ratings unpacked by run_with_ratings, in source order. -/
structure Ratings where
  rL : ℚ
  rConf : ℚ
  rG : ℚ
  rP : ℚ
  rD : ℚ
  rC : ℚ
  rT : ℚ
  rR : ℚ
  rF : ℚ
  rS : ℚ
  rPl : ℚ

/-- The result dictionary of run_with_ratings (the fields the claims use). -/
structure RunResult where
  output : List Char
  urgency_sym : List Char
  execution_sym : List Char
  has_surprise : Bool
  score_impact : ℚ
  score_urgency : ℚ
  score_execution : ℚ
  estimated_time_minutes : Option Nat
  planned_time_minutes : Option Nat
  analysis : String

/-- run_with_ratings from main.py: parse the task, compute the three scores
and the five symbols, prepend the estimated-time tag to the tags when the
input has no planned minutes and an estimate is supplied, and assemble the
output string. -/
def run_with_ratings (cfg : Config) (taskInput : List Char) (r : Ratings)
    (estimatedMins : Option Nat) : RunResult :=
  let p := parse_task taskInput
  let tags := p.1
  let text := p.2.1
  let plannedMins := p.2.2
  let sImpact := compute_impact cfg r.rL r.rConf r.rG
  let sUrgency := compute_urgency cfg r.rP r.rD
  let sExecution := compute_execution cfg r.rC r.rT r.rR r.rF
  let impactSym := get_impact_symbol cfg sImpact
  let urgencySym := get_urgency_symbol cfg sUrgency
  let executionSym := get_execution_symbol cfg sExecution
  let surpriseSym := get_surprise_symbol cfg r.rS
  let plannedSym := get_planned_symbol cfg r.rPl
  let analysis := get_analysis_text cfg sImpact sExecution sUrgency r.rS
  let tags2 :=
    match plannedMins, estimatedMins with
    | none, some m => timeTag m ++ tags
    | _, _ => tags
  let finalString := format_output impactSym surpriseSym plannedSym tags2 text
  { output := finalString
    urgency_sym := urgencySym
    execution_sym := executionSym
    has_surprise := !surpriseSym.isEmpty
    score_impact := sImpact
    score_urgency := sUrgency
    score_execution := sExecution
    estimated_time_minutes := estimatedMins
    planned_time_minutes := plannedMins
    analysis := analysis }

/-- Occurrence count of the double-dash at every position of a string. -/
def ddCount : List Char → Nat
  | [] => 0
  | [_] => 0
  | c1 :: c2 :: rest =>
    (if c1 = '-' ∧ c2 = '-' then 1 else 0) + ddCount (c2 :: rest)

theorem lstrip_eq_self_of_head {l : List Char} {a : Char} (hhead : l.head? = some a)
    (ha : isWs a = false) : lstrip l = l := by
  cases l with
  | nil => rfl
  | cons x t =>
    simp only [List.head?_cons, Option.some.injEq] at hhead
    subst hhead
    exact lstrip_cons_not_ws t ha

theorem lstrip_pla {pla : List Char} (tail : List Char)
    (hpla : pla = plannedYes ∨ pla = plannedNo) :
    lstrip (pla ++ tail) = pla ++ tail := by
  rcases hpla with rfl | rfl
  · exact lstrip_cons_not_ws _ (by decide)
  · exact lstrip_cons_not_ws _ (by decide)

theorem run_pla {pla : List Char} (tail : List Char)
    (hpla : pla = plannedYes ∨ pla = plannedNo) :
    stripLoopRun (pla ++ tail) = stripLoopRun (lstrip tail) := by
  rcases hpla with rfl | rfl
  · exact stripLoopRun_plannedYes tail
  · exact stripLoopRun_plannedNo tail

theorem run_sep_pla {sep pla : List Char} (tail : List Char)
    (hsep : sep = [] ∨ sep = dashdash)
    (hpla : pla = plannedYes ∨ pla = plannedNo) :
    stripLoopRun (sep ++ (pla ++ tail)) = stripLoopRun (lstrip tail) := by
  rcases hsep with rfl | rfl
  · rw [List.nil_append]
    exact run_pla tail hpla
  · rw [stripLoopRun_dashdash, lstrip_pla tail hpla]
    exact run_pla tail hpla

theorem lstrip_sep_pla {sep pla : List Char} (tail : List Char)
    (hsep : sep = [] ∨ sep = dashdash)
    (hpla : pla = plannedYes ∨ pla = plannedNo) :
    lstrip (sep ++ (pla ++ tail)) = sep ++ (pla ++ tail) := by
  rcases hsep with rfl | rfl
  · rw [List.nil_append]
    exact lstrip_pla tail hpla
  · exact lstrip_cons_not_ws _ (by decide)

theorem run_sur_sep_pla {sur sep pla : List Char} (tail : List Char)
    (hsur : sur = [] ∨ sur = gift) (hsep : sep = [] ∨ sep = dashdash)
    (hpla : pla = plannedYes ∨ pla = plannedNo) :
    stripLoopRun (sur ++ (sep ++ (pla ++ tail))) = stripLoopRun (lstrip tail) := by
  rcases hsur with rfl | rfl
  · rw [List.nil_append]
    exact run_sep_pla tail hsep hpla
  · rw [stripLoopRun_gift, lstrip_sep_pla tail hsep hpla]
    exact run_sep_pla tail hsep hpla

theorem lstrip_sur_sep_pla {sur sep pla : List Char} (tail : List Char)
    (hsur : sur = [] ∨ sur = gift) (hsep : sep = [] ∨ sep = dashdash)
    (hpla : pla = plannedYes ∨ pla = plannedNo) :
    lstrip (sur ++ (sep ++ (pla ++ tail))) = sur ++ (sep ++ (pla ++ tail)) := by
  rcases hsur with rfl | rfl
  · rw [List.nil_append]
    exact lstrip_sep_pla tail hsep hpla
  · exact lstrip_cons_not_ws _ (by decide)

theorem run_decor (k : Nat) {sur sep pla : List Char} (tail : List Char)
    (hsur : sur = [] ∨ sur = gift) (hsep : sep = [] ∨ sep = dashdash)
    (hpla : pla = plannedYes ∨ pla = plannedNo) :
    stripLoopRun (lstrip (starRep k ++ (sur ++ (sep ++ (pla ++ tail))))) =
      stripLoopRun (lstrip tail) := by
  induction k with
  | zero =>
    rw [show starRep 0 = ([] : List Char) from rfl, List.nil_append]
    rw [lstrip_sur_sep_pla tail hsur hsep hpla]
    exact run_sur_sep_pla tail hsur hsep hpla
  | succ k2 ih =>
    rw [show starRep (k2 + 1) ++ (sur ++ (sep ++ (pla ++ tail))) =
      '⭐' :: ('\uFE0F' :: (starRep k2 ++ (sur ++ (sep ++ (pla ++ tail)))))
      from by simp [starRep, star]]
    rw [lstrip_cons_not_ws _ (by decide)]
    rw [show ('⭐' :: ('\uFE0F' :: (starRep k2 ++ (sur ++ (sep ++ (pla ++ tail)))))) =
      star ++ (starRep k2 ++ (sur ++ (sep ++ (pla ++ tail)))) from rfl]
    rw [stripLoopRun_star]
    exact ih

/-- Stripping the decorations produced by format_output recovers exactly the
tag-plus-text payload: for a star-run impact symbol, an optional surprise
glyph and a planned glyph, the strip loop consumes the whole decoration
prefix and stops at the tags (which start with an opening brace) or at the
already-clean text. -/
theorem strip_format (k : Nat) {sur pla : List Char} (tags text : List Char)
    (hsur : sur = [] ∨ sur = gift)
    (hpla : pla = plannedYes ∨ pla = plannedNo)
    (htags : (tags ≠ [] ∧ tags.head? = some '{') ∨
      (tags = [] ∧ lstrip text = text ∧ stripOnce text = none)) :
    strip_leading_symbols (format_output (starRep k) sur pla tags text) =
      if tags = [] then text else tags ++ ' ' :: text := by
  have hsep : (if starRep k ≠ [] ∨ sur ≠ [] then dashdash else ([] : List Char)) = [] ∨
      (if starRep k ≠ [] ∨ sur ≠ [] then dashdash else ([] : List Char)) = dashdash := by
    split_ifs
    · right; rfl
    · left; rfl
  rcases htags with ⟨htne, hthead⟩ | ⟨hte, hlt, hso⟩
  · rw [if_neg htne]
    unfold format_output strip_leading_symbols
    rw [if_pos htne]
    rw [show starRep k ++ sur ++ (if starRep k ≠ [] ∨ sur ≠ [] then dashdash else []) ++
        pla ++ tags ++ ' ' :: text =
      starRep k ++ (sur ++ ((if starRep k ≠ [] ∨ sur ≠ [] then dashdash else []) ++
        (pla ++ (tags ++ ' ' :: text)))) from by simp [List.append_assoc]]
    rw [run_decor k (tags ++ ' ' :: text) hsur hsep hpla]
    cases tags with
    | nil => exact absurd rfl htne
    | cons t0 ttail =>
      simp only [List.head?_cons, Option.some.injEq] at hthead
      subst hthead
      rw [show ('{' :: ttail) ++ ' ' :: text = '{' :: (ttail ++ ' ' :: text) from rfl]
      rw [lstrip_cons_not_ws _ (by decide)]
      rw [stripLoopRun_eq]
      rw [stripOnce_brace]
  · subst hte
    rw [if_pos rfl]
    unfold format_output strip_leading_symbols
    rw [if_neg (by simp)]
    rw [show starRep k ++ sur ++ (if starRep k ≠ [] ∨ sur ≠ [] then dashdash else []) ++
        pla ++ ' ' :: text =
      starRep k ++ (sur ++ ((if starRep k ≠ [] ∨ sur ≠ [] then dashdash else []) ++
        (pla ++ (' ' :: text)))) from by simp [List.append_assoc]]
    rw [run_decor k (' ' :: text) hsur hsep hpla]
    rw [lstrip_cons_ws text (by decide), hlt]
    rw [stripLoopRun_eq, hso]

theorem convertRatings_some {cfg : Config} {pm : Option Nat} :
    ∀ {i : Nat} {ts : List (List Char)} {v : List ℚ},
    convertRatings cfg pm i ts = some v →
    v.length = ts.length ∧
    ∀ j t, ts[j]? = some t → resolveTok cfg pm (i + j) t = v[j]? := by
  intro i ts
  induction ts generalizing i with
  | nil =>
    intro v h
    simp only [convertRatings, Option.some.injEq] at h
    subst h
    refine ⟨rfl, ?_⟩
    intro j t ht
    simp at ht
  | cons t0 ts ih =>
    intro v h
    simp only [convertRatings] at h
    cases hr : resolveTok cfg pm i t0 with
    | none => rw [hr] at h; exact absurd h (by simp)
    | some val =>
      rw [hr] at h
      obtain ⟨vs, hvs, rfl⟩ := Option.map_eq_some'.mp h
      obtain ⟨hlen, hidx⟩ := ih hvs
      refine ⟨by simp [hlen], ?_⟩
      intro j t ht
      cases j with
      | zero =>
        simp only [List.getElem?_cons_zero, Option.some.injEq] at ht
        subst ht
        simpa using hr
      | succ j =>
        simp only [List.getElem?_cons_succ] at ht ⊢
        have := hidx j t ht
        rwa [show i + (j + 1) = i + 1 + j by omega]

theorem convertRatings_none {cfg : Config} {pm : Option Nat} :
    ∀ {i : Nat} {ts : List (List Char)} (j : Nat) (t : List Char),
    ts[j]? = some t → resolveTok cfg pm (i + j) t = none →
    convertRatings cfg pm i ts = none := by
  intro i ts
  induction ts generalizing i with
  | nil => intro j t ht; simp at ht
  | cons t0 ts ih =>
    intro j t ht hres
    cases j with
    | zero =>
      simp only [List.getElem?_cons_zero, Option.some.injEq] at ht
      subst ht
      rw [Nat.add_zero] at hres
      simp [convertRatings, hres]
    | succ j =>
      simp only [List.getElem?_cons_succ] at ht
      cases hr : resolveTok cfg pm i t0 with
      | none => simp [convertRatings, hr]
      | some val =>
        have hnone : convertRatings cfg pm (i + 1) ts = none :=
          ih j t ht (by rwa [show i + 1 + j = i + (j + 1) by omega])
        simp [convertRatings, hr, hnone]

theorem ratingMap_underscore (cfg : Config) : ratingMap cfg ['_'] = none := by
  simp [ratingMap]

/-- Claim C3: all-or-nothing rating parse with a restricted underscore
placeholder. An underscore token at any index other than six, or at index six
without planned minutes, or any token that is neither a rating-scale key nor
a permitted underscore, makes parse_ratings return no result; on success the
vector is full length, every underscore resolved via get_time_score at index
six with planned minutes present, and every other token via the rating map. -/
theorem c3_all_or_nothing (cfg : Config) (s : List Char) (pm : Option Nat) :
    (∀ j : Nat, j ≠ 6 → (ratingParts s)[j]? = some ['_'] → parse_ratings cfg s pm = none) ∧
    (pm = none → (ratingParts s)[6]? = some ['_'] → parse_ratings cfg s pm = none) ∧
    (∀ (j : Nat) (t : List Char), (ratingParts s)[j]? = some t → ratingMap cfg t = none →
      t ≠ ['_'] → parse_ratings cfg s pm = none) ∧
    (∀ v, parse_ratings cfg s pm = some v →
      v.length = 11 ∧ (ratingParts s).length = 11 ∧
      (∀ j : Nat, (ratingParts s)[j]? = some ['_'] →
        j = 6 ∧ ∃ m, pm = some m ∧ v[j]? = some (get_time_score cfg (m : ℤ))) ∧
      (∀ (j : Nat) (t : List Char), (ratingParts s)[j]? = some t → t ≠ ['_'] →
        v[j]? = ratingMap cfg t)) := by
  have habort : ∀ j t, (ratingParts s)[j]? = some t →
      resolveTok cfg pm (0 + j) t = none → parse_ratings cfg s pm = none := by
    intro j t ht hres
    unfold parse_ratings
    split_ifs with hlen
    · exact convertRatings_none j t ht hres
    · rfl
  refine ⟨?_, ?_, ?_, ?_⟩
  · intro j hj ht
    refine habort j _ ht ?_
    simp only [resolveTok, Nat.zero_add]
    rw [if_neg (by simp [hj]), ratingMap_underscore]
  · intro hpm ht
    refine habort 6 _ ht ?_
    simp only [resolveTok, Nat.zero_add]
    rw [if_neg (by simp [hpm]), ratingMap_underscore]
  · intro j t ht hmap hne
    refine habort j t ht ?_
    simp only [resolveTok, Nat.zero_add]
    rw [if_neg (by simp [hne]), hmap]
  · intro v hv
    unfold parse_ratings at hv
    split_ifs at hv with hlen
    · obtain ⟨hvlen, hidx⟩ := convertRatings_some hv
      refine ⟨hvlen.trans hlen, hlen, ?_, ?_⟩
      · intro j ht
        have hres := hidx j _ ht
        have hjlt : j < (ratingParts s).length := by
          by_contra hge
          rw [List.getElem?_eq_none (by omega)] at ht
          exact absurd ht (by simp)
        have hvj : v[j]? = some (v.get ⟨j, by omega⟩) :=
          List.getElem?_eq_getElem (by omega)
        simp only [resolveTok, Nat.zero_add] at hres
        by_cases hj6 : j = 6
        · subst hj6
          cases pm with
          | none =>
            rw [if_neg (by simp), ratingMap_underscore] at hres
            rw [hvj] at hres
            exact absurd hres (by simp)
          | some m =>
            rw [if_pos (by simp)] at hres
            refine ⟨rfl, m, rfl, ?_⟩
            rw [← hres]
            rfl
        · rw [if_neg (by simp [hj6]), ratingMap_underscore] at hres
          rw [hvj] at hres
          exact absurd hres (by simp)
      · intro j t ht hne
        have hres := hidx j t ht
        simp only [resolveTok, Nat.zero_add] at hres
        rw [if_neg (by simp [hne])] at hres
        exact hres.symm

/-- Claim C3 witness: an underscore at index six with no planned minutes
makes the whole parse fail on a concrete rating string. -/
theorem c3_witness :
    parse_ratings defaultConfig ("0,0,0,0,0,0,_,0,0,0,0".toList) none = none :=
  (c3_all_or_nothing defaultConfig ("0,0,0,0,0,0,_,0,0,0,0".toList) none).2.1
    rfl (by decide)

/-- Claim C1: the specification and the repository's own tests require
parse_ratings to accept both eleven and twelve comma-separated tokens and to
return a twelve-entry vector, but the code rejects every count other than
eleven and returns an eleven-entry vector: twelve zero tokens parse to
nothing, and eleven zero tokens parse to an eleven-length (not twelve-length)
all-zero vector. -/
theorem c1_twelve_token_rejected :
    parse_ratings defaultConfig ("0,0,0,0,0,0,0,0,0,0,0,0".toList) none = none ∧
    parse_ratings defaultConfig ("0,0,0,0,0,0,0,0,0,0,0".toList) none =
      some [0, 0, 0, 0, 0, 0, 0, 0, 0, 0, 0] := by
  exact ⟨by decide, by decide⟩

/-- Claim C7: get_time_score tier characterization at the default thresholds,
boundaries inclusive on the lower tier, including the six boundary values. -/
theorem c7_time_score (m : ℤ) :
    (get_time_score defaultConfig m = 0 ↔ m ≤ 30) ∧
    (get_time_score defaultConfig m = 3 / 10 ↔ 30 < m ∧ m ≤ 90) ∧
    (get_time_score defaultConfig m = 6 / 10 ↔ 90 < m ∧ m ≤ 150) ∧
    (get_time_score defaultConfig m = 1 ↔ 150 < m) ∧
    get_time_score defaultConfig 30 = 0 ∧
    get_time_score defaultConfig 31 = 3 / 10 ∧
    get_time_score defaultConfig 90 = 3 / 10 ∧
    get_time_score defaultConfig 91 = 6 / 10 ∧
    get_time_score defaultConfig 150 = 6 / 10 ∧
    get_time_score defaultConfig 151 = 1 := by
  have hval : ∀ k : ℤ, get_time_score defaultConfig k =
      if k ≤ 30 then (0 : ℚ) else if k ≤ 90 then 3 / 10 else if k ≤ 150 then 6 / 10
      else 1 := by
    intro k
    rfl
  refine ⟨?_, ?_, ?_, ?_, ?_, ?_, ?_, ?_, ?_, ?_⟩ <;>
    rw [hval] <;> split_ifs <;> norm_num <;> omega

/-- Claim C8: get_impact_symbol tier characterization at the default star
thresholds, strictly greater-than at every boundary, including the two
boundary instances. -/
theorem c8_impact_symbol (score : ℚ) :
    (get_impact_symbol defaultConfig score = starRep 3 ↔ 3 / 4 < score) ∧
    (get_impact_symbol defaultConfig score = starRep 2 ↔
      1 / 2 < score ∧ score ≤ 3 / 4) ∧
    (get_impact_symbol defaultConfig score = starRep 1 ↔
      1 / 4 < score ∧ score ≤ 1 / 2) ∧
    (get_impact_symbol defaultConfig score = [] ↔ score ≤ 1 / 4) ∧
    get_impact_symbol defaultConfig (3 / 4) = starRep 2 ∧
    get_impact_symbol defaultConfig (76 / 100) = starRep 3 := by
  have hval : ∀ x : ℚ, get_impact_symbol defaultConfig x =
      if 3 / 4 < x then starRep 3 else if 1 / 2 < x then starRep 2
      else if 1 / 4 < x then starRep 1 else [] := by
    intro x
    rfl
  have hd32 : starRep 3 ≠ starRep 2 := by decide
  have hd31 : starRep 3 ≠ starRep 1 := by decide
  have hd30 : starRep 3 ≠ [] := by decide
  have hd21 : starRep 2 ≠ starRep 1 := by decide
  have hd20 : starRep 2 ≠ [] := by decide
  have hd10 : starRep 1 ≠ [] := by decide
  have hc1 : get_impact_symbol defaultConfig (3 / 4) = starRep 2 := by
    rw [hval]
    norm_num
  have hc2 : get_impact_symbol defaultConfig (76 / 100) = starRep 3 := by
    rw [hval]
    norm_num
  rcases le_or_lt score (1 / 4) with hA | hA
  · have hsym : get_impact_symbol defaultConfig score = [] := by
      rw [hval, if_neg (by linarith), if_neg (by linarith), if_neg (by linarith)]
    rw [hsym]
    exact ⟨iff_of_false (fun h => hd30 h.symm) (by linarith),
      iff_of_false (fun h => hd20 h.symm) (by rintro ⟨h1, -⟩; linarith),
      iff_of_false (fun h => hd10 h.symm) (by rintro ⟨h1, -⟩; linarith),
      iff_of_true rfl hA, hc1, hc2⟩
  · rcases le_or_lt score (1 / 2) with hB | hB
    · have hsym : get_impact_symbol defaultConfig score = starRep 1 := by
        rw [hval, if_neg (by linarith), if_neg (by linarith), if_pos hA]
      rw [hsym]
      exact ⟨iff_of_false (fun h => hd31 h.symm) (by linarith),
        iff_of_false (fun h => hd21 h.symm) (by rintro ⟨h1, -⟩; linarith),
        iff_of_true rfl ⟨hA, hB⟩,
        iff_of_false hd10 (by linarith), hc1, hc2⟩
    · rcases le_or_lt score (3 / 4) with hC | hC
      · have hsym : get_impact_symbol defaultConfig score = starRep 2 := by
          rw [hval, if_neg (by linarith), if_pos hB]
        rw [hsym]
        exact ⟨iff_of_false (fun h => hd32 h.symm) (by linarith),
          iff_of_true rfl ⟨hB, hC⟩,
          iff_of_false hd21 (by rintro ⟨h1, h2⟩; linarith),
          iff_of_false hd20 (by linarith), hc1, hc2⟩
      · have hsym : get_impact_symbol defaultConfig score = starRep 3 := by
          rw [hval, if_pos hC]
        rw [hsym]
        exact ⟨iff_of_true rfl hC,
          iff_of_false hd32 (by rintro ⟨-, h2⟩; linarith),
          iff_of_false hd31 (by rintro ⟨-, h2⟩; linarith),
          iff_of_false hd30 (by linarith), hc1, hc2⟩

theorem parse_format_tags (k : Nat) {sur pla : List Char} (tags text : List Char)
    (hsur : sur = [] ∨ sur = gift)
    (hpla : pla = plannedYes ∨ pla = plannedNo)
    (htne : tags ≠ []) (hthead : tags.head? = some '{')
    (hrun : tagRun tags = some (tags, []))
    (hpt : pstrip tags = tags)
    (hmt : matchOneTag (' ' :: text) = none) :
    (parse_task (format_output (starRep k) sur pla tags text)).1 = tags ∧
    (parse_task (format_output (starRep k) sur pla tags text)).2.1 = pstrip text ∧
    strip_leading_symbols (format_output (starRep k) sur pla tags text) =
      tags ++ ' ' :: text := by
  have hstrip := strip_format k tags text hsur hpla (Or.inl ⟨htne, hthead⟩)
  rw [if_neg htne] at hstrip
  have hw : tagRun (' ' :: text) = none := tagRun_none_iff.mpr hmt
  have hrun2 : tagRun (tags ++ ' ' :: text) = some (tags, ' ' :: text) := by
    rw [tagRun_full_append hrun, hw]
  refine ⟨?_, ?_, hstrip⟩
  · simp only [parse_task, hstrip, hrun2]
    exact hpt
  · simp only [parse_task, hstrip, hrun2]
    exact pstrip_cons_ws text (by decide)

theorem parse_format_notags (k : Nat) {sur pla : List Char} (text : List Char)
    (hsur : sur = [] ∨ sur = gift)
    (hpla : pla = plannedYes ∨ pla = plannedNo)
    (hlt : lstrip text = text) (hso : stripOnce text = none)
    (hrt : tagRun text = none) :
    (parse_task (format_output (starRep k) sur pla [] text)).1 = [] ∧
    (parse_task (format_output (starRep k) sur pla [] text)).2.1 = text ∧
    strip_leading_symbols (format_output (starRep k) sur pla [] text) = text := by
  have hstrip := strip_format k [] text hsur hpla (Or.inr ⟨rfl, hlt, hso⟩)
  rw [if_pos rfl] at hstrip
  refine ⟨?_, ?_, hstrip⟩
  · simp only [parse_task, hstrip, hrt]
  · simp only [parse_task, hstrip, hrt]

theorem parse_task_facts (raw : List Char) :
    ((parse_task raw).1 = [] ∧ (parse_task raw).2.1 = strip_leading_symbols raw ∧
      tagRun (strip_leading_symbols raw) = none) ∨
    ((parse_task raw).1 ≠ [] ∧ (parse_task raw).1.head? = some '{' ∧
      pstrip (parse_task raw).1 = (parse_task raw).1 ∧
      tagRun (parse_task raw).1 = some ((parse_task raw).1, []) ∧
      (parse_task raw).1.getLast? = some '}' ∧
      pstrip (parse_task raw).2.1 = (parse_task raw).2.1 ∧
      matchOneTag (' ' :: (parse_task raw).2.1) = none) := by
  have hQ1 := lstrip_strip_leading_symbols raw
  cases htr : tagRun (strip_leading_symbols raw) with
  | none =>
    left
    refine ⟨?_, ?_, rfl⟩ <;> simp [parse_task, htr]
  | some gr =>
    obtain ⟨g, r⟩ := gr
    right
    obtain ⟨hsplit, hgne, hglast⟩ := tagRun_shape htr
    have hghead : g.head? = some '{' := tagRun_head htr hQ1
    have hpt : pstrip g = g := pstrip_eq_self hghead (by decide) hglast (by decide)
    have hself : tagRun g = some (g, []) := tagRun_self htr
    have hmr : matchOneTag r = none := tagRun_rest_none htr
    have hmpr : matchOneTag (pstrip r) = none := matchOneTag_pstrip_none hmr
    have hmsp : matchOneTag (' ' :: pstrip r) = none :=
      (matchOneTag_cons_ws_none (by decide)).mpr hmpr
    simp only [parse_task, htr]
    rw [hpt]
    exact ⟨hgne, hghead, hpt, hself, hglast, pstrip_idem _, hmsp⟩

/-- Claim C2: round-trip idempotence. For any raw task string, decorating
the parsed tags and text with any star-run impact symbol (zero to three
stars), optional surprise glyph and planned or spontaneous glyph via
format_output and re-parsing yields the same tags and the same text. -/
theorem c2_round_trip (raw : List Char) (k : Nat) (sur pla : List Char)
    (hk : k ≤ 3) (hsur : sur = [] ∨ sur = gift)
    (hpla : pla = plannedYes ∨ pla = plannedNo) :
    (parse_task (format_output (starRep k) sur pla (parse_task raw).1
        (parse_task raw).2.1)).1 = (parse_task raw).1 ∧
    (parse_task (format_output (starRep k) sur pla (parse_task raw).1
        (parse_task raw).2.1)).2.1 = (parse_task raw).2.1 := by
  rcases parse_task_facts raw with ⟨h1, h2, h3⟩ | ⟨hne, hhead, hpt, hrun, -, hptext, hmt⟩
  · rw [h1, h2]
    have hQ1 := lstrip_strip_leading_symbols raw
    have hQ2 := stripOnce_strip_leading_symbols raw
    obtain ⟨a, b, -⟩ := parse_format_notags k (strip_leading_symbols raw) hsur hpla hQ1 hQ2 h3
    exact ⟨a, b⟩
  · obtain ⟨a, b, -⟩ := parse_format_tags k _ _ hsur hpla hne hhead hrun hpt hmt
    refine ⟨a, ?_⟩
    rw [b, hptext]

/-- Claim C2 witness: the round trip at a concrete decorated raw string with
two stars, the surprise glyph and the spontaneous glyph. -/
theorem c2_round_trip_witness :
    (2 : Nat) ≤ 3 ∧
    ((parse_task (format_output (starRep 2) gift plannedNo
        (parse_task (star ++ ('{' :: 'p' :: '0' :: ':' :: '4' :: '5' :: '}' ::
          (' ' :: "write draft".toList)))).1
        (parse_task (star ++ ('{' :: 'p' :: '0' :: ':' :: '4' :: '5' :: '}' ::
          (' ' :: "write draft".toList)))).2.1)).1 =
      (parse_task (star ++ ('{' :: 'p' :: '0' :: ':' :: '4' :: '5' :: '}' ::
        (' ' :: "write draft".toList)))).1 ∧
    (parse_task (format_output (starRep 2) gift plannedNo
        (parse_task (star ++ ('{' :: 'p' :: '0' :: ':' :: '4' :: '5' :: '}' ::
          (' ' :: "write draft".toList)))).1
        (parse_task (star ++ ('{' :: 'p' :: '0' :: ':' :: '4' :: '5' :: '}' ::
          (' ' :: "write draft".toList)))).2.1)).2.1 =
      (parse_task (star ++ ('{' :: 'p' :: '0' :: ':' :: '4' :: '5' :: '}' ::
        (' ' :: "write draft".toList)))).2.1) :=
  ⟨by decide,
    c2_round_trip (star ++ ('{' :: 'p' :: '0' :: ':' :: '4' :: '5' :: '}' ::
      (' ' :: "write draft".toList))) 2 gift plannedNo (by decide)
      (Or.inr rfl) (Or.inr rfl)⟩

theorem tagAtom_timeTag (m : Nat) : TagAtom (timeTag m) := by
  refine ⟨[], 'p' :: (natDigits (m / 60) ++ ':' :: twoPad (m % 60)), ?_, by simp, by simp, ?_⟩
  · rw [timeTag]
    simp [List.append_assoc]
  · intro x hx
    rcases List.mem_cons.mp hx with rfl | hx
    · decide
    · rcases List.mem_append.mp hx with hx | hx
      · exact isDigit_ne_brace (natDigits_all_digits x hx)
      · rcases List.mem_cons.mp hx with rfl | hx
        · decide
        · obtain ⟨d1, d2, hpad, hd1, hd2, -⟩ := twoPad_shape (Nat.mod_lt m (by omega))
          rw [hpad] at hx
          rcases List.mem_cons.mp hx with rfl | hx
          · exact isDigit_ne_brace hd1
          · rcases List.mem_cons.mp hx with rfl | hx
            · exact isDigit_ne_brace hd2
            · simp at hx

theorem tagRun_timeTag (m : Nat) : tagRun (timeTag m) = some (timeTag m, []) := by
  have hm : matchOneTag (timeTag m) = some (timeTag m, []) := by
    have hx := matchOneTag_atom_append (tagAtom_timeTag m) []
    rwa [List.append_nil] at hx
  rw [tagRun_step hm, tagRun_nil]

theorem matchTimeAt_timeTag (m : Nat) (z : List Char) :
    matchTimeAt (timeTag m ++ z) = some (m / 60, m % 60) := by
  obtain ⟨d1, d2, hpad, hd1, hd2, hval⟩ := twoPad_shape (Nat.mod_lt m (by omega))
  have harg : timeTag m ++ z =
      '{' :: 'p' :: (natDigits (m / 60) ++ ':' :: (d1 :: d2 :: '}' :: z)) := by
    rw [timeTag, hpad]
    simp
  rw [harg]
  have htw : (natDigits (m / 60) ++ ':' :: (d1 :: d2 :: '}' :: z)).takeWhile isDigit =
      natDigits (m / 60) :=
    takeWhile_all_append natDigits_all_digits (by decide) _
  have hdw : (natDigits (m / 60) ++ ':' :: (d1 :: d2 :: '}' :: z)).dropWhile isDigit =
      ':' :: (d1 :: d2 :: '}' :: z) :=
    dropWhile_all_append natDigits_all_digits (by decide) _
  rw [show matchTimeAt ('{' :: 'p' ::
        (natDigits (m / 60) ++ ':' :: (d1 :: d2 :: '}' :: z))) =
      (if (natDigits (m / 60) ++ ':' :: (d1 :: d2 :: '}' :: z)).takeWhile isDigit = []
       then none
       else match (natDigits (m / 60) ++ ':' :: (d1 :: d2 :: '}' :: z)).dropWhile isDigit with
         | ':' :: e1 :: e2 :: '}' :: _ =>
           if isDigit e1 ∧ isDigit e2 then
             some (digitsVal
               ((natDigits (m / 60) ++ ':' :: (d1 :: d2 :: '}' :: z)).takeWhile isDigit),
               10 * charVal e1 + charVal e2)
           else none
         | _ => none) from rfl]
  rw [htw, hdw, if_neg (natDigits_ne_nil _)]
  rw [show (match ':' :: (d1 :: d2 :: '}' :: z) with
      | ':' :: e1 :: e2 :: '}' :: _ =>
        if isDigit e1 ∧ isDigit e2 then
          some (digitsVal (natDigits (m / 60)), 10 * charVal e1 + charVal e2)
        else none
      | _ => none) =
      (if isDigit d1 ∧ isDigit d2 then
        some (digitsVal (natDigits (m / 60)), 10 * charVal d1 + charVal d2)
      else none) from rfl]
  rw [if_pos ⟨hd1, hd2⟩, digitsVal_natDigits, hval]

theorem findTime_timeTag (m : Nat) (z : List Char) :
    findTime (timeTag m ++ z) = some (m / 60, m % 60) := by
  have harg : ∃ tail, timeTag m ++ z = '{' :: tail := ⟨_, rfl⟩
  obtain ⟨tail, htail⟩ := harg
  rw [htail]
  rw [show findTime ('{' :: tail) =
      (match matchTimeAt ('{' :: tail) with
        | some v => some v
        | none => findTime tail) from rfl]
  rw [← htail, matchTimeAt_timeTag]

theorem parse_task_planned (raw : List Char) :
    (parse_task raw).2.2 = (findTime (strip_leading_symbols raw)).map
      (fun hm => hm.1 * 60 + hm.2) := by
  cases htr : tagRun (strip_leading_symbols raw) with
  | none => simp [parse_task, htr]
  | some gr =>
    obtain ⟨g, r⟩ := gr
    simp [parse_task, htr]

theorem get_impact_symbol_starRep (cfg : Config) (x : ℚ) :
    ∃ k, get_impact_symbol cfg x = starRep k := by
  unfold get_impact_symbol
  split_ifs
  · exact ⟨3, rfl⟩
  · exact ⟨2, rfl⟩
  · exact ⟨1, rfl⟩
  · exact ⟨0, rfl⟩

theorem get_surprise_symbol_cases (cfg : Config) (x : ℚ) :
    get_surprise_symbol cfg x = [] ∨ get_surprise_symbol cfg x = gift := by
  unfold get_surprise_symbol
  split_ifs
  · right; rfl
  · left; rfl

theorem get_planned_symbol_cases (cfg : Config) (x : ℚ) :
    get_planned_symbol cfg x = plannedYes ∨ get_planned_symbol cfg x = plannedNo := by
  unfold get_planned_symbol
  split_ifs
  · left; rfl
  · right; rfl

theorem run_output (cfg : Config) (task : List Char) (r : Ratings) (est : Option Nat) :
    (run_with_ratings cfg task r est).output =
      format_output (get_impact_symbol cfg (compute_impact cfg r.rL r.rConf r.rG))
        (get_surprise_symbol cfg r.rS) (get_planned_symbol cfg r.rPl)
        (match (parse_task task).2.2, est with
          | none, some m => timeTag m ++ (parse_task task).1
          | _, _ => (parse_task task).1)
        (parse_task task).2.1 := rfl

/-- Claim C4: get_analysis_text is the concatenation of an optional
scope-unclear sentence (present iff surprise is at least one half), exactly
one of the four archetype sentences chosen by the strict greater-than
half-quadrant on impact and execution, and an optional critical-priority
sentence (present iff urgency is at least one half); in particular the
quick-win instance. -/
theorem c4_analysis_text (i e u s : ℚ) :
    get_analysis_text defaultConfig i e u s =
      (if 1 / 2 ≤ s then "Scope is unclear (🎁). " else "") ++
      (if 1 / 2 < i then
        (if 1 / 2 < e then "High value, but demanding. Schedule deep work for this."
         else "High leverage for low friction—a pure Quick Win.")
       else
        (if 1 / 2 < e then "Hard work for little return. Can you eliminate or automate?"
         else "Easy, but low leverage. Good for low-energy blocks.")) ++
      (if 1 / 2 ≤ u then " Critical priority." else "") ∧
    get_analysis_text defaultConfig (8 / 10) (2 / 10) 0 0 =
      "High leverage for low friction—a pure Quick Win." := by
  constructor
  · simp only [get_analysis_text, defaultConfig]
    split_ifs <;> first | rfl | tauto
  · norm_num [get_analysis_text, defaultConfig]

/-- Claim C5: estimate_time_minutes is a multiple of five, is an upper round
of the table-based raw estimate to within five minutes, treats every
off-table complexity like the default base of forty-five minutes, and maps
the concrete instance to one hundred forty-five. -/
theorem c5_estimate_time (rc rr rs : ℚ) :
    (∃ k : ℤ, estimate_time_minutes rc rr rs = 5 * k) ∧
    ((if rc = 0 then (15 : ℚ) else if rc = 3 / 10 then 45 else if rc = 6 / 10 then 90
        else if rc = 1 then 180 else 45) * (1 + rr * (3 / 10)) * (1 + rs * (2 / 10)) ≤
      (estimate_time_minutes rc rr rs : ℚ)) ∧
    ((estimate_time_minutes rc rr rs : ℚ) <
      (if rc = 0 then (15 : ℚ) else if rc = 3 / 10 then 45 else if rc = 6 / 10 then 90
        else if rc = 1 then 180 else 45) * (1 + rr * (3 / 10)) * (1 + rs * (2 / 10)) + 5) ∧
    (¬(rc = 0 ∨ rc = 3 / 10 ∨ rc = 6 / 10 ∨ rc = 1) →
      estimate_time_minutes rc rr rs = estimate_time_minutes (3 / 10) rr rs) ∧
    estimate_time_minutes (6 / 10) 1 1 = 145 := by
  have hdef : ∀ x y z : ℚ, estimate_time_minutes x y z =
      ⌈((if x = 0 then (15 : ℚ) else if x = 3 / 10 then 45 else if x = 6 / 10 then 90
          else if x = 1 then 180 else 45) * (1 + y * (3 / 10)) * (1 + z * (2 / 10))) / 5⌉ * 5 :=
    fun _ _ _ => rfl
  refine ⟨?_, ?_, ?_, ?_, ?_⟩
  · exact ⟨_, by rw [hdef]; ring⟩
  · rw [hdef]
    have h1 := Int.le_ceil
      (((if rc = 0 then (15 : ℚ) else if rc = 3 / 10 then 45 else if rc = 6 / 10 then 90
          else if rc = 1 then 180 else 45) * (1 + rr * (3 / 10)) * (1 + rs * (2 / 10))) / 5)
    push_cast
    linarith
  · rw [hdef]
    have h1 := Int.ceil_lt_add_one
      (((if rc = 0 then (15 : ℚ) else if rc = 3 / 10 then 45 else if rc = 6 / 10 then 90
          else if rc = 1 then 180 else 45) * (1 + rr * (3 / 10)) * (1 + rs * (2 / 10))) / 5)
    push_cast
    linarith
  · intro hoff
    push_neg at hoff
    obtain ⟨h0, h3, h6, h1⟩ := hoff
    rw [hdef, hdef]
    rw [if_neg h0, if_neg h3, if_neg h6, if_neg h1]
    norm_num
  · rw [hdef]
    norm_num
    have h29 : ⌈(702 / 25 : ℚ)⌉ = 29 := by
      rw [Int.ceil_eq_iff]
      norm_num
    rw [h29]
    norm_num

/-- A configuration whose impact weights sum to one but include negative
entries; reachable through the environment-backed configuration loader,
which only validates the group sums. -/
def c6CexConfig : Config :=
  { defaultConfig with wLeverage := 2, wConfidence := -(1 / 2), wGoals := -(1 / 2) }

/-- Claim C6 counterexample: with impact weights two, minus one half, minus
one half (which sum to one) and the in-range rating inputs one, zero, zero,
compute_impact returns two, outside the unit interval, so weight sums alone
do not bound the scores. -/
theorem c6_counterexample :
    c6CexConfig.wLeverage + c6CexConfig.wConfidence + c6CexConfig.wGoals = 1 ∧
    ((0 : ℚ) ≤ 1 ∧ (1 : ℚ) ≤ 1) ∧ ((0 : ℚ) ≤ 0 ∧ (0 : ℚ) ≤ 1) ∧
    compute_impact c6CexConfig 1 0 0 = 2 ∧ ¬ compute_impact c6CexConfig 1 0 0 ≤ 1 := by
  norm_num [compute_impact, c6CexConfig, defaultConfig]

/-- Claim C6 (amended): assuming each group's weights are nonnegative and sum
to one, all three scoring functions map rating inputs in the unit interval to
scores in the unit interval. -/
theorem c6_scores_bounded (cfg : Config)
    (hL : 0 ≤ cfg.wLeverage) (hC : 0 ≤ cfg.wConfidence) (hG : 0 ≤ cfg.wGoals)
    (hP : 0 ≤ cfg.wPriority) (hD : 0 ≤ cfg.wDeadline)
    (hX : 0 ≤ cfg.wComplex) (hT : 0 ≤ cfg.wTime) (hR : 0 ≤ cfg.wRisk)
    (hF : 0 ≤ cfg.wFun)
    (hs1 : cfg.wLeverage + cfg.wConfidence + cfg.wGoals = 1)
    (hs2 : cfg.wPriority + cfg.wDeadline = 1)
    (hs3 : cfg.wComplex + cfg.wTime + cfg.wRisk + cfg.wFun = 1)
    (l c g p d cx t r f : ℚ)
    (hl : 0 ≤ l ∧ l ≤ 1) (hc : 0 ≤ c ∧ c ≤ 1) (hg : 0 ≤ g ∧ g ≤ 1)
    (hp : 0 ≤ p ∧ p ≤ 1) (hd : 0 ≤ d ∧ d ≤ 1)
    (hcx : 0 ≤ cx ∧ cx ≤ 1) (ht : 0 ≤ t ∧ t ≤ 1) (hr : 0 ≤ r ∧ r ≤ 1)
    (hf : 0 ≤ f ∧ f ≤ 1) :
    (0 ≤ compute_impact cfg l c g ∧ compute_impact cfg l c g ≤ 1) ∧
    (0 ≤ compute_urgency cfg p d ∧ compute_urgency cfg p d ≤ 1) ∧
    (0 ≤ compute_execution cfg cx t r f ∧ compute_execution cfg cx t r f ≤ 1) := by
  unfold compute_impact compute_urgency compute_execution
  refine ⟨⟨?_, ?_⟩, ⟨?_, ?_⟩, ⟨?_, ?_⟩⟩
  · have e1 := mul_nonneg hl.1 hL
    have e2 := mul_nonneg hc.1 hC
    have e3 := mul_nonneg hg.1 hG
    linarith
  · have e1 := mul_le_of_le_one_left hL hl.2
    have e2 := mul_le_of_le_one_left hC hc.2
    have e3 := mul_le_of_le_one_left hG hg.2
    linarith
  · have e1 := mul_nonneg hp.1 hP
    have e2 := mul_nonneg hd.1 hD
    linarith
  · have e1 := mul_le_of_le_one_left hP hp.2
    have e2 := mul_le_of_le_one_left hD hd.2
    linarith
  · have e1 := mul_nonneg hcx.1 hX
    have e2 := mul_nonneg ht.1 hT
    have e3 := mul_nonneg hr.1 hR
    have e4 := mul_nonneg hf.1 hF
    linarith
  · have e1 := mul_le_of_le_one_left hX hcx.2
    have e2 := mul_le_of_le_one_left hT ht.2
    have e3 := mul_le_of_le_one_left hR hr.2
    have e4 := mul_le_of_le_one_left hF hf.2
    linarith

/-- Claim C6 witness: the amended bound theorem applied to the default
configuration and concrete in-range inputs. -/
theorem c6_scores_bounded_witness :
    (0 ≤ compute_impact defaultConfig (3 / 10) 1 0 ∧
      compute_impact defaultConfig (3 / 10) 1 0 ≤ 1) ∧
    (0 ≤ compute_urgency defaultConfig 1 (6 / 10) ∧
      compute_urgency defaultConfig 1 (6 / 10) ≤ 1) ∧
    (0 ≤ compute_execution defaultConfig 0 (3 / 10) 1 (6 / 10) ∧
      compute_execution defaultConfig 0 (3 / 10) 1 (6 / 10) ≤ 1) :=
  c6_scores_bounded defaultConfig
    (by norm_num [defaultConfig]) (by norm_num [defaultConfig])
    (by norm_num [defaultConfig]) (by norm_num [defaultConfig])
    (by norm_num [defaultConfig]) (by norm_num [defaultConfig])
    (by norm_num [defaultConfig]) (by norm_num [defaultConfig])
    (by norm_num [defaultConfig]) (by norm_num [defaultConfig])
    (by norm_num [defaultConfig]) (by norm_num [defaultConfig])
    (3 / 10) 1 0 1 (6 / 10) 0 (3 / 10) 1 (6 / 10)
    (by norm_num) (by norm_num) (by norm_num) (by norm_num) (by norm_num)
    (by norm_num) (by norm_num) (by norm_num) (by norm_num)

/-- Claim C10: implicit estimated-time tag injection. When the parsed task
has no planned minutes and run_with_ratings receives an estimate of m
minutes, the output's tags are the estimated-time tag (hours m div 60,
zero-padded minutes m mod 60) prepended to the parsed tags, and re-parsing
the output yields planned minutes m; when the input already carries planned
minutes, the parsed tags pass through to the output unchanged. -/
theorem c10_estimated_time_tag (cfg : Config) (task : List Char) (r : Ratings) :
    (∀ m : Nat, (parse_task task).2.2 = none →
      (parse_task (run_with_ratings cfg task r (some m)).output).1 =
        timeTag m ++ (parse_task task).1 ∧
      (parse_task (run_with_ratings cfg task r (some m)).output).2.2 = some m) ∧
    (∀ (est : Option Nat) (p : Nat), (parse_task task).2.2 = some p →
      (parse_task (run_with_ratings cfg task r est).output).1 = (parse_task task).1) ∧
    (∀ m : Nat, timeTag m =
      '{' :: 'p' :: (natDigits (m / 60) ++ ':' :: (twoPad (m % 60) ++ ['}']))) := by
  obtain ⟨k, hk⟩ := get_impact_symbol_starRep cfg (compute_impact cfg r.rL r.rConf r.rG)
  have hsur := get_surprise_symbol_cases cfg r.rS
  have hpla := get_planned_symbol_cases cfg r.rPl
  refine ⟨?_, ?_, fun m => rfl⟩
  · intro m hpm
    have hout : (run_with_ratings cfg task r (some m)).output =
        format_output (starRep k) (get_surprise_symbol cfg r.rS)
          (get_planned_symbol cfg r.rPl) (timeTag m ++ (parse_task task).1)
          (parse_task task).2.1 := by
      rw [run_output, hk, hpm]
    have hfacts : timeTag m ++ (parse_task task).1 ≠ [] ∧
        (timeTag m ++ (parse_task task).1).head? = some '{' ∧
        tagRun (timeTag m ++ (parse_task task).1) =
          some (timeTag m ++ (parse_task task).1, []) ∧
        pstrip (timeTag m ++ (parse_task task).1) = timeTag m ++ (parse_task task).1 ∧
        matchOneTag (' ' :: (parse_task task).2.1) = none := by
      rcases parse_task_facts task with ⟨h1, h2, h3⟩ |
        ⟨hne, hhead, hpt, hrun, hlast, hptext, hmt⟩
      · rw [h1, h2, List.append_nil]
        refine ⟨by simp [timeTag], by simp [timeTag], tagRun_timeTag m, ?_, ?_⟩
        · have hh2 : (timeTag m).head? = some '{' := by
            rw [timeTag]
            rfl
          exact pstrip_eq_self hh2 (by decide)
            (tagAtom_last (tagAtom_timeTag m)) (by decide)
        · exact (matchOneTag_cons_ws_none (by decide)).mpr (tagRun_none_iff.mp h3)
      · refine ⟨by simp [timeTag], by simp [timeTag], ?_, ?_, hmt⟩
        · rw [tagRun_full_append (tagRun_timeTag m), hrun]
        · have hh2 : (timeTag m ++ (parse_task task).1).head? = some '{' := by
            rw [timeTag]
            rfl
          have hl2 : (timeTag m ++ (parse_task task).1).getLast? = some '}' := by
            rw [List.getLast?_append_of_ne_nil _ hne]
            exact hlast
          exact pstrip_eq_self hh2 (by decide) hl2 (by decide)
    obtain ⟨htne2, hthead2, hrun2, hpt2, hmt2⟩ := hfacts
    obtain ⟨pa, pb, pc⟩ := parse_format_tags k (timeTag m ++ (parse_task task).1)
      (parse_task task).2.1 hsur hpla htne2 hthead2 hrun2 hpt2 hmt2
    constructor
    · rw [hout]
      exact pa
    · rw [hout, parse_task_planned, pc]
      rw [show (timeTag m ++ (parse_task task).1) ++ ' ' :: (parse_task task).2.1 =
        timeTag m ++ ((parse_task task).1 ++ ' ' :: (parse_task task).2.1) by simp]
      rw [findTime_timeTag]
      simp only [Option.map_some']
      rw [Option.some.injEq]
      omega
  · intro est p hpm
    have hout2 : (run_with_ratings cfg task r est).output =
        format_output (starRep k) (get_surprise_symbol cfg r.rS)
          (get_planned_symbol cfg r.rPl) (parse_task task).1 (parse_task task).2.1 := by
      rw [run_output, hk, hpm]
    rcases parse_task_facts task with ⟨h1, h2, h3⟩ |
      ⟨hne, hhead, hpt, hrun, hlast, hptext, hmt⟩
    · rw [hout2, h1, h2]
      obtain ⟨pa, -, -⟩ := parse_format_notags k (strip_leading_symbols task) hsur hpla
        (lstrip_strip_leading_symbols task) (stripOnce_strip_leading_symbols task) h3
      exact pa
    · rw [hout2]
      obtain ⟨pa, -, -⟩ := parse_format_tags k (parse_task task).1 (parse_task task).2.1
        hsur hpla hne hhead hrun hpt hmt
      exact pa

/-- Ratings used by the claim C10 witness. -/
def c10Ratings : Ratings := ⟨0, 0, 0, 0, 0, 0, 0, 0, 0, 0, 0⟩

/-- Claim C10 witness: on a concrete task without planned minutes and a
58-minute estimate, the output carries the estimated-time tag and re-parses
to planned minutes 58. -/
theorem c10_witness :
    (parse_task (run_with_ratings defaultConfig ("fix bug".toList) c10Ratings
        (some 58)).output).1 = timeTag 58 ++ (parse_task ("fix bug".toList)).1 ∧
    (parse_task (run_with_ratings defaultConfig ("fix bug".toList) c10Ratings
        (some 58)).output).2.2 = some 58 :=
  (c10_estimated_time_tag defaultConfig ("fix bug".toList) c10Ratings).1 58 (by decide)

theorem ddCount_cons_cons (a b : Char) (l : List Char) :
    ddCount (a :: b :: l) = (if a = '-' ∧ b = '-' then 1 else 0) + ddCount (b :: l) :=
  rfl

theorem ddCount_cons_cons_ne {a b : Char} (l : List Char) (h : ¬(a = '-' ∧ b = '-')) :
    ddCount (a :: b :: l) = ddCount (b :: l) := by
  rw [ddCount_cons_cons, if_neg h, Nat.zero_add]

theorem ddCount_append_junction :
    ∀ (a b : List Char), ¬(a.getLast? = some '-' ∧ b.head? = some '-') →
    ddCount (a ++ b) = ddCount a + ddCount b := by
  intro a
  induction a with
  | nil =>
    intro b h
    simp [ddCount]
  | cons x a2 ih =>
    intro b h
    cases a2 with
    | nil =>
      cases b with
      | nil => simp [ddCount]
      | cons y b2 =>
        have hxy : ¬(x = '-' ∧ y = '-') := by
          intro hc
          exact h ⟨by simp [hc.1], by simp [hc.2]⟩
        rw [show ([x] ++ y :: b2) = x :: y :: b2 from rfl]
        rw [ddCount_cons_cons_ne b2 hxy]
        rw [show ddCount [x] = 0 from rfl, Nat.zero_add]
    | cons x2 a3 =>
      have h2 : ¬((x2 :: a3).getLast? = some '-' ∧ b.head? = some '-') := by
        intro hc
        refine h ⟨?_, hc.2⟩
        rw [List.getLast?_cons_cons]
        exact hc.1
      have ih2 := ih b h2
      rw [show (x :: x2 :: a3) ++ b = x :: x2 :: (a3 ++ b) from rfl]
      rw [ddCount_cons_cons, ddCount_cons_cons]
      rw [show x2 :: (a3 ++ b) = (x2 :: a3) ++ b from rfl, ih2]
      omega

theorem starRep_ne_nil {k : Nat} (h : 1 ≤ k) : starRep k ≠ [] := by
  cases k with
  | zero => omega
  | succ k2 => simp [starRep, star]

theorem starRep_last {k : Nat} (h : 1 ≤ k) : (starRep k).getLast? = some '\uFE0F' := by
  induction k with
  | zero => omega
  | succ k2 ih =>
    by_cases h2 : 1 ≤ k2
    · rw [show starRep (k2 + 1) = star ++ starRep k2 from rfl]
      rw [List.getLast?_append_of_ne_nil _ (starRep_ne_nil h2)]
      exact ih h2
    · have hk0 : k2 = 0 := by omega
      subst hk0
      decide

theorem ddCount_starRep (k : Nat) : ddCount (starRep k) = 0 := by
  induction k with
  | zero => rfl
  | succ k2 ih =>
    rw [show starRep (k2 + 1) = star ++ starRep k2 from rfl]
    rw [ddCount_append_junction star (starRep k2) (by intro hc; simp [star] at hc)]
    rw [ih]
    rfl

theorem ddCount_cons_ne {c : Char} (l : List Char) (hc : c ≠ '-') :
    ddCount (c :: l) = ddCount l := by
  cases l with
  | nil => rfl
  | cons d l2 => exact ddCount_cons_cons_ne l2 (by simp [hc])

/-- Claim C9 counterexample: with a one-star impact symbol and an empty
surprise symbol, a clean text containing its own double-dash makes the
assembled string contain the double-dash twice, not exactly once. -/
theorem c9_counterexample :
    starRep 1 ≠ [] ∧
    ddCount (format_output (starRep 1) [] plannedNo []
      ('a' :: '-' :: '-' :: 'b' :: [])) = 2 :=
  ⟨by decide, by decide⟩

/-- Claim C9 (amended): format_output concatenates the impact and surprise
symbols with no separator, inserts the literal double-dash iff at least one
of them is non-empty, then the planned symbol, the tags abutting, one space
and the text; and, provided tags and text themselves contain no double-dash,
a non-empty star-run impact symbol with an empty surprise symbol yields a
string containing the double-dash exactly once, between the impact symbol
and the planned symbol. -/
theorem c9_format_output :
    (∀ impactSym surpriseSym plannedSym tags text : List Char,
      format_output impactSym surpriseSym plannedSym tags text =
        impactSym ++ surpriseSym ++
        (if impactSym = [] ∧ surpriseSym = [] then [] else dashdash) ++
        plannedSym ++ tags ++ ' ' :: text) ∧
    (∀ (k : Nat) (pla tags text : List Char), 1 ≤ k →
      (pla = plannedYes ∨ pla = plannedNo) →
      ddCount tags = 0 → ddCount text = 0 →
      format_output (starRep k) [] pla tags text =
        starRep k ++ dashdash ++ pla ++ tags ++ ' ' :: text ∧
      ddCount (format_output (starRep k) [] pla tags text) = 1) := by
  have hstruct : ∀ impactSym surpriseSym plannedSym tags text : List Char,
      format_output impactSym surpriseSym plannedSym tags text =
        impactSym ++ surpriseSym ++
        (if impactSym = [] ∧ surpriseSym = [] then [] else dashdash) ++
        plannedSym ++ tags ++ ' ' :: text := by
    intro imp sur pla tags text
    unfold format_output
    by_cases himp : imp = [] ∧ sur = []
    · have hsepL : (if imp ≠ [] ∨ sur ≠ [] then dashdash else ([] : List Char)) = [] := by
        rw [if_neg (by tauto)]
      have hsepR : (if imp = [] ∧ sur = [] then ([] : List Char) else dashdash) = [] :=
        if_pos himp
      rw [hsepL, hsepR]
      by_cases ht : tags = []
      · rw [if_neg (by simp [ht]), ht]
        simp
      · rw [if_pos ht]
    · have hsepL : (if imp ≠ [] ∨ sur ≠ [] then dashdash else ([] : List Char)) =
          dashdash := by
        rw [if_pos (by tauto)]
      have hsepR : (if imp = [] ∧ sur = [] then ([] : List Char) else dashdash) =
          dashdash := if_neg himp
      rw [hsepL, hsepR]
      by_cases ht : tags = []
      · rw [if_neg (by simp [ht]), ht]
        simp
      · rw [if_pos ht]
  refine ⟨hstruct, ?_⟩
  intro k pla tags text hk hpla htags htext
  have heq : format_output (starRep k) [] pla tags text =
      starRep k ++ ('-' :: '-' :: (pla ++ (tags ++ ' ' :: text))) := by
    rw [hstruct]
    rw [if_neg (by simp [starRep_ne_nil hk])]
    simp [dashdash, List.append_assoc]
  constructor
  · rw [heq]
    simp [dashdash, List.append_assoc]
  · rw [heq]
    rw [ddCount_append_junction _ _ ?junction]
    case junction =>
      intro hc
      rw [starRep_last hk] at hc
      simp at hc
    rw [ddCount_starRep, Nat.zero_add]
    have hpleft : ∀ z : List Char, ddCount ('-' :: '-' :: (pla ++ z)) =
        1 + ddCount (pla ++ z) := by
      intro z
      rcases hpla with rfl | rfl
      · rw [show plannedYes ++ z = '🗓' :: ('\uFE0F' :: z) from rfl]
        rw [ddCount_cons_cons, if_pos (by exact ⟨rfl, rfl⟩)]
        rw [ddCount_cons_cons_ne _ (by decide)]
      · rw [show plannedNo ++ z = '🎲' :: z from rfl]
        rw [ddCount_cons_cons, if_pos (by exact ⟨rfl, rfl⟩)]
        rw [ddCount_cons_cons_ne _ (by decide)]
    rw [hpleft]
    have hplaCount : ddCount (pla ++ (tags ++ ' ' :: text)) =
        ddCount (tags ++ ' ' :: text) := by
      rcases hpla with rfl | rfl
      · rw [ddCount_append_junction _ _ (by intro hc; exact absurd hc.1 (by decide))]
        rw [show ddCount plannedYes = 0 from by decide, Nat.zero_add]
      · rw [ddCount_append_junction _ _ (by intro hc; exact absurd hc.1 (by decide))]
        rw [show ddCount plannedNo = 0 from by decide, Nat.zero_add]
    rw [hplaCount]
    rw [ddCount_append_junction _ _ (by intro hc; simp at hc)]
    rw [htags]
    rw [ddCount_cons_ne _ (by decide), htext]

/-- Claim C9 witness: one star, no surprise symbol, dice planned symbol,
empty tags and a one-letter text assemble with the double-dash exactly once. -/
theorem c9_format_output_witness :
    1 ≤ 1 ∧ (plannedNo = plannedYes ∨ plannedNo = plannedNo) ∧
    ddCount ([] : List Char) = 0 ∧ ddCount ('x' :: []) = 0 ∧
    (format_output (starRep 1) [] plannedNo [] ('x' :: []) =
      starRep 1 ++ dashdash ++ plannedNo ++ [] ++ ' ' :: ('x' :: []) ∧
     ddCount (format_output (starRep 1) [] plannedNo [] ('x' :: [])) = 1) :=
  ⟨by decide, Or.inr rfl, by decide, by decide,
    c9_format_output.2 1 plannedNo [] ('x' :: []) (by decide) (Or.inr rfl)
      (by decide) (by decide)⟩

/-- Claim C5 witness: a half rating is off the base-time table, so the
estimate equals the default forty-five-minute-base estimate. -/
theorem c5_estimate_time_witness :
    ¬((1 / 2 : ℚ) = 0 ∨ (1 / 2 : ℚ) = 3 / 10 ∨ (1 / 2 : ℚ) = 6 / 10 ∨ (1 / 2 : ℚ) = 1) ∧
    estimate_time_minutes (1 / 2) 0 0 = estimate_time_minutes (3 / 10) 0 0 :=
  ⟨by norm_num, (c5_estimate_time (1 / 2) 0 0).2.2.2.1 (by norm_num)⟩

end TaskPrioritizer
